import Mathlib

/-! Verification of the shipit multi-provider inference engine core
    (worker/agents/inferutils/core.ts): streaming tool-call accumulation,
    message sanitization, depth guards, rate-limit classification,
    completion signalling and blueprint data normalization.

    JavaScript-specific semantics (truthiness, `Map` insertion order,
    in-place object mutation, try/catch) are modelled explicitly where the
    source relies on them.  Platform builtins with unbounded behaviour
    (`JSON.parse` success, `parseFloat`) are abstracted as function
    parameters; everything else is translated directly from the source. -/

/-! ## JSON-like dynamic values -/

/-- JSON-like values, modelling the dynamic JavaScript values that
`normalizeBlueprintData` and the Gemini error-body parser operate on.
Objects are ordered association lists, as JavaScript objects preserve
insertion order of keys. -/
inductive JValue where
  | null : JValue
  | bool : Bool → JValue
  | num : ℚ → JValue
  | str : String → JValue
  | arr : List JValue → JValue
  | obj : List (String × JValue) → JValue

/-- JavaScript truthiness for a `JValue`. -/
def jsTruthy : JValue → Bool
  | .null => false
  | .bool b => b
  | .num q => q != 0
  | .str s => s != ""
  | .arr _ => true
  | .obj _ => true

/-- Property read `o[k]` on a JavaScript object represented as an ordered
association list (first binding wins; JavaScript objects have unique keys). -/
def getField (fs : List (String × JValue)) (k : String) : Option JValue :=
  (fs.find? (fun p => p.1 == k)).map (·.2)

/-- Whether key `k` is present (`k in o`). -/
def hasField (fs : List (String × JValue)) (k : String) : Bool :=
  (getField fs k).isSome

/-- Property write `o[k] = v` for an already-present key: replaces the first
binding of `k` in place, preserving key order, as JavaScript assignment to an
existing property does.  (On JavaScript-representable objects keys are unique,
so replacing the first binding is exact.) -/
def setField (fs : List (String × JValue)) (k : String) (v : JValue) :
    List (String × JValue) :=
  match fs with
  | [] => []
  | p :: rest => if p.1 == k then (k, v) :: rest else p :: setField rest k v

/-! ## Messages, tool calls, contexts (inferutils/common + core.ts data model) -/

/-- An accumulated/complete tool invocation
(`ChatCompletionMessageFunctionToolCall` with its `function` payload
flattened: `id`, `function.name`, `function.arguments`). -/
structure ToolCallReq where
  id : String
  name : String
  arguments : String
deriving DecidableEq, Repr

inductive MessageRole where
  | system
  | user
  | assistant
  | tool
  | function
deriving DecidableEq, Repr

/-- A conversation message.  `content` abstracts the textual payload (string
or serialized parts); `name`/`tool_call_id` appear on tool messages and
`tool_calls` on assistant messages, mirroring the `Message` type used by
core.ts.  `none` models an absent (`undefined`) field. -/
structure Message where
  role : MessageRole
  content : String := ""
  name : Option String := none
  tool_call_id : Option String := none
  tool_calls : Option (List ToolCallReq) := none
deriving DecidableEq, Repr

/-- `CompletionSignal`: set when a designated completion tool executes. -/
structure CompletionSignal where
  signaled : Bool
  toolName : String
  summary : Option String := none
deriving DecidableEq, Repr

/-- `ToolCallResult`: outcome of one tool execution.  `result` is the
JSON-serialized success payload when the execution produced a truthy result,
`none` when it produced none (rendered as the literal "done" marker). -/
structure ToolCallResult where
  id : String
  name : String
  result : Option String := none
deriving DecidableEq, Repr

/-- `ToolCallContext` (core.ts): accumulated messages of the current
tool-calling round, recursion depth, optional completion signal and the
warning-injected marker. -/
structure ToolCallContext where
  messages : List Message
  depth : Nat
  completionSignal : Option CompletionSignal := none
  warningInjected : Option Bool := none
deriving DecidableEq, Repr

/-- `toolCallContext?.depth ?? 0`. -/
def ctxDepth (ctx : Option ToolCallContext) : Nat :=
  (ctx.map (·.depth)).getD 0

/-- JavaScript `String.prototype.trim()`: strips whitespace from both ends.
Stated over the character list so that it evaluates by kernel reduction. -/
def jsTrim (s : String) : String :=
  String.mk (((s.data.dropWhile Char.isWhitespace).reverse.dropWhile
    Char.isWhitespace).reverse)

/-- The synthetic tool-role message appended for one executed result:
`{ role: "tool", content: result.result ? JSON.stringify(result.result) :
'done', name: result.name, tool_call_id: result.id }`. -/
def toolResultMessage (r : ToolCallResult) : Message :=
  { role := .tool,
    content := r.result.getD "done",
    name := some r.name,
    tool_call_id := some r.id,
    tool_calls := none }

/-- `updateToolCallContext` (core.ts lines 503-537): appends the assistant
message and one tool message per named executed result, increments depth,
and consults the completion detector only when no signal object is already
present (`if (completionDetector && !completionSignal)`; any present signal
object is truthy in JavaScript). -/
def updateToolCallContext (toolCallContext : Option ToolCallContext)
    (assistantMessage : Message) (executedToolCalls : List ToolCallResult)
    (completionDetector : Option (List ToolCallResult → Option CompletionSignal)) :
    ToolCallContext :=
  let newMessages :=
    ((toolCallContext.map (·.messages)).getD []) ++ [assistantMessage] ++
      (executedToolCalls.filter
        (fun r => r.name != "" && jsTrim r.name != "")).map toolResultMessage
  let newDepth := ((toolCallContext.map (·.depth)).getD 0) + 1
  let completionSignal :=
    match toolCallContext.bind (·.completionSignal) with
    | some s => some s
    | none =>
      match completionDetector with
      | some d => d executedToolCalls
      | none => none
  { messages := newMessages,
    depth := newDepth,
    completionSignal := completionSignal,
    warningInjected := some ((toolCallContext.bind (·.warningInjected)).getD false) }

/-- Modelled from the spec: the repository's `CompletionDetector`
implementation (inferutils/completionDetection.ts) is not under src/, only
its call sites are.  Per the spec, the detector inspects the executed results
in order and signals on the first result recognized as a completion tool
("first tool in the list recognized as a completion tool wins").
`isCompletionTool` and the summary derivation are its pluggable parts. -/
def detectCompletion (isCompletionTool : String → Bool)
    (summaryOf : ToolCallResult → Option String)
    (results : List ToolCallResult) : Option CompletionSignal :=
  (results.find? (fun r => isCompletionTool r.name)).map
    (fun r => { signaled := true, toolName := r.name, summary := summaryOf r })

/-- The first `some` in a list of options. -/
def firstSome : List (Option α) → Option α
  | [] => none
  | some x :: _ => some x
  | none :: t => firstSome t

theorem updateToolCallContext_depth (ctx : Option ToolCallContext)
    (am : Message) (rs : List ToolCallResult)
    (det : Option (List ToolCallResult → Option CompletionSignal)) :
    (updateToolCallContext ctx am rs det).depth = ctxDepth ctx + 1 := by
  cases ctx <;> rfl

/-- The recursive inference loop's round structure (core.ts `infer`, lines
681-693 and 1140-1185), abstracted over the network/tool-execution outcome of
one round: `round ctx = none` means the round terminates without recursing
(no executed tool calls with results, completion signalled, plain terminal
result), `some (assistantMessage, executedToolCalls)` means the round recurses
with the context derived by `updateToolCallContext`.  The value counts the
rounds (network calls) performed; the entry guard refuses to start a round at
`depth ≥ maxDepth`.  That this definition is accepted as terminating is
exactly the depth-capping argument. -/
def inferLoopRounds (maxDepth : Nat)
    (round : Option ToolCallContext → Option (Message × List ToolCallResult))
    (detector : Option (List ToolCallResult → Option CompletionSignal))
    (ctx : Option ToolCallContext) : Nat :=
  if _h : ctxDepth ctx ≥ maxDepth then 0
  else
    match round ctx with
    | none => 1
    | some (am, rs) =>
      1 + inferLoopRounds maxDepth round detector
            (some (updateToolCallContext ctx am rs detector))
termination_by maxDepth - ctxDepth ctx
decreasing_by
  have hd : ctxDepth (some (updateToolCallContext ctx am rs detector)) =
      ctxDepth ctx + 1 := by
    simp [ctxDepth, updateToolCallContext_depth]
  omega

/-! ## Entry guards (core.ts lines 677-693 and 1256-1267) -/

/-- Outcome of the pre-network entry checks of `infer`.  `limitError` models
the thrown `RateLimitExceededError` for an oversized message list,
`depthAbort` the thrown `AbortError` ("Maximum tool calling depth ...
exceeded") for structured-output callers, `depthNotice` the returned
`{ string, toolCallContext }` terminal value for free-text callers, and
`proceed` continuation into routing and the network call. -/
inductive InferGuardResult where
  | limitError
  | depthAbort (ctx : Option ToolCallContext)
  | depthNotice (notice : String) (ctx : Option ToolCallContext)
  | proceed
deriving DecidableEq, Repr

/-- The terminal system notice returned by both depth guards. -/
def maxDepthNoticeText : String := "[System: Maximum tool calling depth reached.]"

/-- Entry checks of `infer` (core.ts lines 677-693), in source order: the
`MAX_LLM_MESSAGES` check throws first; then the depth guard fires at
`depth ≥ maxToolCallingDepth`.  The limits are configuration constants
(`MAX_LLM_MESSAGES`, `getMaxToolCallingDepth(actionKey)` from
agents/constants), passed here as parameters. -/
def inferEntryGuard (maxLlmMessages maxToolCallingDepth : Nat)
    (numMessages : Nat) (hasSchema : Bool)
    (toolCallContext : Option ToolCallContext) : InferGuardResult :=
  if numMessages > maxLlmMessages then .limitError
  else if ctxDepth toolCallContext ≥ maxToolCallingDepth then
    if hasSchema then .depthAbort toolCallContext
    else .depthNotice maxDepthNoticeText toolCallContext
  else .proceed

/-- Entry check of `inferGeminiNative` (core.ts lines 1256-1267): same depth
guard, no message-count check. -/
def inferGeminiNativeGuard (maxToolCallingDepth : Nat) (hasSchema : Bool)
    (toolCallContext : Option ToolCallContext) : InferGuardResult :=
  if ctxDepth toolCallContext ≥ maxToolCallingDepth then
    if hasSchema then .depthAbort toolCallContext
    else .depthNotice maxDepthNoticeText toolCallContext
  else .proceed

/-! ## Rate-limit classification (core.ts lines 936-968 and 1329-1381) -/

/-- `Math.ceil` on an exact rational, producing an integer.  Defined through
`Rat.floor` so that it evaluates by kernel reduction; it agrees with
`Int.ceil` (see `jsMathCeil_eq_ceil`). -/
def jsMathCeil (q : ℚ) : ℤ := -((-q).floor)

theorem jsMathCeil_eq_ceil (q : ℚ) : jsMathCeil q = Int.ceil q := by
  have h : Rat.floor (-q) = Int.floor (-q) := rfl
  rw [jsMathCeil, h, Int.floor_neg, neg_neg]

/-- `s.replace(/s$/, '')`: drops a single trailing 's' when present, stated
over the character list so that it evaluates by kernel reduction. -/
def stripTrailingS (s : String) : String :=
  if s.data.getLast? = some 's' then String.mk s.data.dropLast else s

/-- The `@type` tag of a Google RPC RetryInfo detail. -/
def geminiRetryInfoType : String := "type.googleapis.com/google.rpc.RetryInfo"

/-- Result of evaluating `errorJson?.error?.details?.find(...)`:
the found RetryInfo detail, no detail (including absent/null chains), or a
thrown TypeError from calling `.find` on a non-array `details` value. -/
inductive GeminiBodyNav where
  | info (d : JValue)
  | noInfo
  | navThrow

/-- `errorJson?.error?.details?.find(d => d['@type'] ===
'type.googleapis.com/google.rpc.RetryInfo')` (core.ts lines 1345-1347).
Optional chaining yields `undefined` (here `noInfo`) when a link is absent,
`null` or a value without the next property; calling `.find` on a present
non-array `details` throws a TypeError. -/
def geminiFindRetryInfo (errorJson : JValue) : GeminiBodyNav :=
  match errorJson with
  | .obj fs =>
    match getField fs "error" with
    | some (.obj efs) =>
      match getField efs "details" with
      | some (.arr ds) =>
        match ds.find? (fun d =>
          match d with
          | .obj dfs =>
            match getField dfs "@type" with
            | some (.str t) => t == geminiRetryInfoType
            | _ => false
          | _ => false) with
        | some d => .info d
        | none => .noInfo
      | some .null => .noInfo
      | some _ => .navThrow
      | none => .noInfo
    | _ => .noInfo
  | _ => .noInfo

/-- The retry-delay seconds extracted from a found RetryInfo detail (core.ts
lines 1349-1363): `delayValue = retryInfo.retryDelay.seconds ||
retryInfo.retryDelay`; strings are parsed after stripping a trailing "s",
numbers pass through; anything unparsable or non-positive falls back to the
34-second default.  `parseNum` abstracts `parseFloat` on strings; property
access on non-objects yields `undefined`, and `parseFloat` of a non-string
non-number is modelled as NaN (the coercions differ only on array-typed
`retryDelay` values, which the RetryInfo wire shape never carries). -/
def geminiRetrySecondsFromInfo (parseNum : String → Option ℚ)
    (info : JValue) : ℚ :=
  let rdOpt : Option JValue :=
    match info with
    | .obj ifs => getField ifs "retryDelay"
    | _ => none
  match rdOpt with
  | some rd =>
    if jsTruthy rd then
      let delayValue : JValue :=
        match rd with
        | .obj rfs =>
          match getField rfs "seconds" with
          | some sv => if jsTruthy sv then sv else rd
          | none => rd
        | _ => rd
      let parsed : Option ℚ :=
        match delayValue with
        | .str s => parseNum (stripTrailingS s)
        | .num q => some q
        | _ => none
      match parsed with
      | some q => if q ≤ 0 then 34 else q
      | none => 34
    else 34
  | none => 34

/-- The retry-delay seconds the Gemini 429 handler computes inside its `try`
block (core.ts lines 1334-1364): the `Retry-After` header takes priority when
present and truthy (falling back to the 34-second default when it does not
parse to a positive number, without consulting the body); otherwise the
RetryInfo detail of the error body is consulted.  `none` models a TypeError
thrown while navigating the body. -/
def geminiRetrySeconds (parseNum : String → Option ℚ)
    (header : Option String) (errorJson : JValue) : Option ℚ :=
  let bodyPath : Option ℚ :=
    match geminiFindRetryInfo errorJson with
    | .navThrow => none
    | .info d => some (geminiRetrySecondsFromInfo parseNum d)
    | .noInfo => some 34
  match header with
  | some hs =>
    if hs ≠ "" then
      some (match parseNum hs with
            | some p => if p > 0 then p else 34
            | none => 34)
    else bodyPath
  | none => bodyPath

/-- What the `try` block of the Gemini 429 handler throws.  Every control
path inside the `try` ends in a throw: the `JSON.parse(errorText)` failure,
a TypeError from body navigation, or the deliberately-constructed
`RateLimitExceededError` carrying `Math.ceil(retryDelaySeconds * 1000)`. -/
inductive Gemini429Thrown where
  | jsonParseError
  | navTypeError
  | rateLimited (retryDelayMs : ℤ)
deriving DecidableEq, Repr

/-- The exception thrown inside the `try` block of the Gemini 429 handler
(core.ts lines 1331-1371).  `body = none` models `JSON.parse(errorText)`
throwing. -/
def gemini429TryOutcome (parseNum : String → Option ℚ)
    (header : Option String) (body : Option JValue) : Gemini429Thrown :=
  match body with
  | none => .jsonParseError
  | some errorJson =>
    match geminiRetrySeconds parseNum header errorJson with
    | none => .navTypeError
    | some secs => .rateLimited (jsMathCeil (secs * 1000))

/-- The retry delay (milliseconds) of the `RateLimitExceededError` that
actually escapes the Gemini 429 handler.  The `catch (parseError)` block
(core.ts lines 1372-1380) intercepts every exception raised in the `try`
block — including the `RateLimitExceededError` deliberately thrown at line
1366 with the computed delay — and rethrows a generic error with the fixed
34000 ms default. -/
def gemini429RetryDelayMs (parseNum : String → Option ℚ)
    (header : Option String) (body : Option JValue) : ℤ :=
  match gemini429TryOutcome parseNum header body with
  | .jsonParseError => 34000
  | .navTypeError => 34000
  | .rateLimited _ => 34000

/-- A `Retry-After` value on the standard (OpenAI-compatible) path: the
header or error field may expose it as a string or a number. -/
inductive RetryAfterValue where
  | str (s : String)
  | num (q : ℚ)
deriving DecidableEq, Repr

/-- JavaScript truthiness of a retry-after value. -/
def retryAfterTruthy : RetryAfterValue → Bool
  | .str s => s != ""
  | .num q => q != 0

/-- The retry delay (milliseconds) computed for a 429 on the standard path
(core.ts lines 945-967): a truthy `Retry-After` header value is interpreted
as (possibly fractional) seconds and converted with `Math.ceil(s * 1000)`;
a missing, unparsable or non-positive value yields the fixed 60000 ms
default.  No error-body retry-info field is consulted on this path. -/
def standardRetryDelayMs (parseNum : String → Option ℚ)
    (retryAfterHeader : Option RetryAfterValue) : ℤ :=
  match retryAfterHeader with
  | none => 60000
  | some h =>
    if retryAfterTruthy h then
      let secs? : Option ℚ :=
        match h with
        | .str s => parseNum s
        | .num q => some q
      match secs? with
      | some q => if q > 0 then jsMathCeil (q * 1000) else 60000
      | none => 60000
    else 60000

/-! ## Claim C10: message-limit check precedes everything -/

/-- Claim C10: whenever the base message list exceeds `MAX_LLM_MESSAGES`,
`infer` throws a rate-limit-typed error (`RateLimitExceededError`)
immediately, before the depth guard, sanitization, routing or any network
request — even when the depth guard would otherwise have returned a
non-throwing terminal result. -/
theorem infer_message_limit_precedence
    (maxLlmMessages maxToolCallingDepth numMessages : Nat) (hasSchema : Bool)
    (ctx : Option ToolCallContext) (h : numMessages > maxLlmMessages) :
    inferEntryGuard maxLlmMessages maxToolCallingDepth numMessages hasSchema ctx =
      .limitError := by
  simp [inferEntryGuard, h]

/-- Witness for C10 at a concrete input where the depth guard would have
returned the non-throwing terminal notice (no schema, depth at the limit). -/
theorem infer_message_limit_precedence_witness :
    inferEntryGuard 3 1 4 false (some { messages := [], depth := 1 }) =
      .limitError :=
  infer_message_limit_precedence 3 1 4 false (some { messages := [], depth := 1 })
    (by decide)

/-! ## Claim C3: depth guard terminates without a network request -/

/-- Claim C3 (amended): for every inference call whose context depth is at
least `maxDepth(actionKey)` — provided the base message list does not exceed
`MAX_LLM_MESSAGES`, whose check runs first and throws a rate-limit error
instead — the entry guard terminates before any network request: a
structured-output caller gets the thrown "max depth exceeded" failure and a
free-text caller gets the terminal system notice string with the context
unchanged.  The native-path guard behaves identically (it performs no
message-count check, so it needs no such proviso). -/
theorem infer_depth_guard_terminal
    (maxLlmMessages maxToolCallingDepth numMessages : Nat) (hasSchema : Bool)
    (ctx : Option ToolCallContext)
    (hmsg : numMessages ≤ maxLlmMessages)
    (hdepth : ctxDepth ctx ≥ maxToolCallingDepth) :
    inferEntryGuard maxLlmMessages maxToolCallingDepth numMessages hasSchema ctx =
      (if hasSchema then .depthAbort ctx
       else .depthNotice maxDepthNoticeText ctx) ∧
    inferGeminiNativeGuard maxToolCallingDepth hasSchema ctx =
      (if hasSchema then .depthAbort ctx
       else .depthNotice maxDepthNoticeText ctx) := by
  constructor
  · simp [inferEntryGuard, Nat.not_lt.mpr hmsg, hdepth]
  · simp [inferGeminiNativeGuard, hdepth]

/-- Witness for the amended C3 at a concrete input (free-text caller at the
depth limit, message list within bounds). -/
theorem infer_depth_guard_terminal_witness :
    inferEntryGuard 10 2 3 false (some { messages := [], depth := 2 }) =
      (if false then .depthAbort (some { messages := [], depth := 2 })
       else .depthNotice maxDepthNoticeText
         (some { messages := [], depth := 2 })) ∧
    inferGeminiNativeGuard 2 false (some { messages := [], depth := 2 }) =
      (if false then .depthAbort (some { messages := [], depth := 2 })
       else .depthNotice maxDepthNoticeText
         (some { messages := [], depth := 2 })) :=
  infer_depth_guard_terminal 10 2 3 false (some { messages := [], depth := 2 })
    (by decide) (by decide)

/-- Counterexample to C3 as stated: at depth ≥ maxDepth but with an
oversized message list, the call throws the rate-limit error, not the
claimed terminal "max depth" notice. -/
theorem infer_depth_guard_counterexample :
    inferEntryGuard 2 1 3 false (some { messages := [], depth := 1 }) =
      .limitError ∧
    InferGuardResult.limitError ≠
      .depthNotice maxDepthNoticeText (some { messages := [], depth := 1 }) := by
  constructor
  · decide
  · decide

/-! ## Claim C9: recursion is depth-capped -/

/-- Claim C9: every recursive self-call passes a newly derived context whose
depth is exactly one greater than the previous context's depth, and the
entry guard refuses to recurse at `depth ≥ maxDepth`, so one logical
inference request performs at most `maxDepth` rounds (each network round and
tool execution assumed terminating, modelled by the `round` oracle). -/
theorem infer_recursion_depth_capped :
    (∀ (ctx : Option ToolCallContext) (am : Message)
        (rs : List ToolCallResult)
        (det : Option (List ToolCallResult → Option CompletionSignal)),
      (updateToolCallContext ctx am rs det).depth = ctxDepth ctx + 1) ∧
    (∀ (maxDepth : Nat)
        (round : Option ToolCallContext → Option (Message × List ToolCallResult))
        (det : Option (List ToolCallResult → Option CompletionSignal))
        (ctx : Option ToolCallContext),
      inferLoopRounds maxDepth round det ctx ≤ maxDepth - ctxDepth ctx) := by
  refine ⟨updateToolCallContext_depth, ?_⟩
  intro maxDepth round det ctx
  suffices h : ∀ (n : Nat) (ctx : Option ToolCallContext),
      maxDepth - ctxDepth ctx ≤ n →
      inferLoopRounds maxDepth round det ctx ≤ maxDepth - ctxDepth ctx by
    exact h (maxDepth - ctxDepth ctx) ctx le_rfl
  intro n
  induction n with
  | zero =>
    intro ctx hn
    rw [inferLoopRounds]
    have hz : maxDepth - ctxDepth ctx = 0 := Nat.le_zero.mp hn
    have : ctxDepth ctx ≥ maxDepth := by omega
    simp [this]
  | succ n ih =>
    intro ctx hn
    rw [inferLoopRounds]
    by_cases hge : ctxDepth ctx ≥ maxDepth
    · simp [hge]
    · simp only [hge, dite_false]
      cases hr : round ctx with
      | none =>
        show 1 ≤ maxDepth - ctxDepth ctx
        omega
      | some p =>
        obtain ⟨am, rs⟩ := p
        show 1 + inferLoopRounds maxDepth round det
            (some (updateToolCallContext ctx am rs det)) ≤ maxDepth - ctxDepth ctx
        have hd : ctxDepth (some (updateToolCallContext ctx am rs det)) =
            ctxDepth ctx + 1 := by
          simp [ctxDepth, updateToolCallContext_depth]
        have := ih (some (updateToolCallContext ctx am rs det)) (by omega)
        omega

/-! ## Claim C7: the completion signal is set at most once -/

theorem firstSome_nil : firstSome ([] : List (Option α)) = none := rfl

theorem firstSome_cons_some (x : α) (t : List (Option α)) :
    firstSome (some x :: t) = some x := rfl

theorem firstSome_cons_none (t : List (Option α)) :
    firstSome (none :: t) = firstSome t := rfl

theorem updateToolCallContext_completionSignal (ctx : Option ToolCallContext)
    (am : Message) (rs : List ToolCallResult)
    (det : Option (List ToolCallResult → Option CompletionSignal)) :
    (updateToolCallContext ctx am rs det).completionSignal =
      (match ctx.bind (·.completionSignal) with
       | some s => some s
       | none =>
         match det with
         | some d => d rs
         | none => none) := rfl

/-- Claim C7: within one recursive call chain the completion signal is set
at most once.  (1) A context already carrying a signal keeps it unchanged
through any further `updateToolCallContext`.  (2) Folding any sequence of
context updates from an unsignalled context yields the signal produced by
the first batch on which the detector fires.  (3) The (spec-modelled)
detector recognizes the first completion-tool result in a batch, so a
subsequent identical tool result in the same batch cannot change the
outcome. -/
theorem completion_signal_set_once :
    (∀ (det : List ToolCallResult → Option CompletionSignal)
        (ctx : ToolCallContext) (am : Message) (rs : List ToolCallResult),
      ctx.completionSignal.isSome →
      (updateToolCallContext (some ctx) am rs (some det)).completionSignal =
        ctx.completionSignal) ∧
    (∀ (det : List ToolCallResult → Option CompletionSignal)
        (batches : List (Message × List ToolCallResult)) (c0 : ToolCallContext),
      c0.completionSignal = none →
      (batches.foldl
        (fun c p => updateToolCallContext (some c) p.1 p.2 (some det))
        c0).completionSignal =
        firstSome (batches.map (fun p => det p.2))) ∧
    (∀ (ic : String → Bool) (so : ToolCallResult → Option String)
        (rs more : List ToolCallResult),
      (∃ r ∈ rs, ic r.name) →
      detectCompletion ic so (rs ++ more) = detectCompletion ic so rs) := by
  refine ⟨?_, ?_, ?_⟩
  · intro det ctx am rs h
    rw [updateToolCallContext_completionSignal]
    cases hc : ctx.completionSignal with
    | some s => simp [hc]
    | none => rw [hc] at h; simp at h
  · intro det batches
    suffices h : ∀ (batches : List (Message × List ToolCallResult))
        (c0 : ToolCallContext),
        (batches.foldl
          (fun c p => updateToolCallContext (some c) p.1 p.2 (some det))
          c0).completionSignal =
          firstSome (c0.completionSignal :: batches.map (fun p => det p.2)) by
      intro c0 hc0
      rw [h batches c0, hc0, firstSome_cons_none]
    intro batches
    induction batches with
    | nil =>
      intro c0
      cases hc : c0.completionSignal with
      | some s => simp [hc, firstSome_cons_some, firstSome_nil]
      | none => simp [hc, firstSome_cons_none, firstSome_nil]
    | cons b t ih =>
      intro c0
      rw [List.foldl_cons, ih]
      cases hc : c0.completionSignal with
      | some s =>
        have hu : (updateToolCallContext (some c0) b.1 b.2 (some det)).completionSignal =
            some s := by
          rw [updateToolCallContext_completionSignal]; simp [hc]
        rw [hu, List.map_cons]
        rfl
      | none =>
        have hu : (updateToolCallContext (some c0) b.1 b.2 (some det)).completionSignal =
            det b.2 := by
          rw [updateToolCallContext_completionSignal]; simp [hc]
        rw [hu, List.map_cons]
        cases hd : det b.2 with
        | some s => rfl
        | none => rfl
  · intro ic so rs more ⟨r, hr, hic⟩
    unfold detectCompletion
    have hs : (rs.find? (fun r => ic r.name)).isSome := by
      rw [List.find?_isSome]
      exact ⟨r, hr, hic⟩
    cases hf : rs.find? (fun r => ic r.name) with
    | some x => rw [List.find?_append, hf]; rfl
    | none => rw [hf] at hs; simp at hs

/-- Witness for C7 at concrete inputs: an already-signalled context stays
signalled through an update carrying a second identical completion result; a
fold from an unsignalled context picks up the first firing batch; appending
a duplicate completion result does not change the detector outcome. -/
theorem completion_signal_set_once_witness :
    ((updateToolCallContext
        (some { messages := [], depth := 1,
                completionSignal := some { signaled := true, toolName := "done_tool" } })
        { role := .assistant } [{ id := "1", name := "done_tool" }]
        (some (detectCompletion (fun n => n == "done_tool") (fun _ => none)))).completionSignal =
      ({ messages := [], depth := 1,
         completionSignal := some { signaled := true, toolName := "done_tool" } } :
         ToolCallContext).completionSignal) ∧
    (([({ role := .assistant }, [({ id := "1", name := "other" } : ToolCallResult)]),
       ({ role := .assistant }, [({ id := "2", name := "done_tool" } : ToolCallResult)])].foldl
        (fun c p => updateToolCallContext (some c) p.1 p.2
          (some (detectCompletion (fun n => n == "done_tool") (fun _ => none))))
        { messages := [], depth := 0 }).completionSignal =
      firstSome
        (([(({ role := .assistant } : Message), [({ id := "1", name := "other" } : ToolCallResult)]),
           (({ role := .assistant } : Message), [({ id := "2", name := "done_tool" } : ToolCallResult)])] :
           List (Message × List ToolCallResult)).map
          (fun p => detectCompletion (fun n => n == "done_tool") (fun _ => none) p.2))) ∧
    detectCompletion (fun n => n == "done_tool") (fun _ => none)
        ([{ id := "1", name := "done_tool" }] ++ [{ id := "1", name := "done_tool" }]) =
      detectCompletion (fun n => n == "done_tool") (fun _ => none)
        [{ id := "1", name := "done_tool" }] :=
  ⟨completion_signal_set_once.1 _ _ _ _ (by decide),
   completion_signal_set_once.2.1 _ _ _ (by decide),
   completion_signal_set_once.2.2 _ _ _ _ ⟨{ id := "1", name := "done_tool" }, by decide, by decide⟩⟩

/-! ## Claim C6: 429 retry-delay classification -/

/-- A concrete instantiation of the abstract `parseFloat` used to evaluate
the classifier at the spec's scenario inputs. -/
def c6ParseNum : String → Option ℚ := fun s =>
  if s = "7.5" then some (15 / 2) else if s = "12" then some 12 else none

/-- The spec's scenario 429 body:
`{"error":{"details":[{"@type":".../RetryInfo","retryDelay":"7.5s"}]}}`. -/
def c6ScenarioBody : JValue :=
  .obj [("error", .obj [("details", .arr [.obj
    [("@type", .str "type.googleapis.com/google.rpc.RetryInfo"),
     ("retryDelay", .str "7.5s")]])])]

/-- Claim C6 (code bug): the Gemini 429 handler's `catch` block intercepts
the `RateLimitExceededError` deliberately thrown inside its own `try` block,
so the error that escapes always carries the fixed 34000 ms default — for
every header and body, including the spec's scenario where the body's
RetryInfo field "7.5s" is correctly computed to 7500 ms inside the `try`
block and then discarded.  The standard path's header step
(`Retry-After: 12` ↦ 12000 ms) works as specified. -/
theorem gemini_429_delay_always_default :
    (∀ (parseNum : String → Option ℚ) (header : Option String)
        (body : Option JValue),
      gemini429RetryDelayMs parseNum header body = 34000) ∧
    gemini429TryOutcome c6ParseNum none (some c6ScenarioBody) =
      .rateLimited 7500 ∧
    standardRetryDelayMs c6ParseNum (some (.str "12")) = 12000 := by
  refine ⟨?_, ?_, ?_⟩
  · intro parseNum header body
    unfold gemini429RetryDelayMs
    cases gemini429TryOutcome parseNum header body <;> rfl
  · have hstrip : stripTrailingS "7.5s" = "7.5" := by decide
    have hinfo : geminiFindRetryInfo c6ScenarioBody =
        GeminiBodyNav.info (JValue.obj
          [("@type", JValue.str "type.googleapis.com/google.rpc.RetryInfo"),
           ("retryDelay", JValue.str "7.5s")]) := by
      simp [geminiFindRetryInfo, c6ScenarioBody, getField, geminiRetryInfoType]
    have hsecs : geminiRetrySecondsFromInfo c6ParseNum
        (JValue.obj
          [("@type", JValue.str "type.googleapis.com/google.rpc.RetryInfo"),
           ("retryDelay", JValue.str "7.5s")]) = 15 / 2 := by
      simp [geminiRetrySecondsFromInfo, getField, jsTruthy, hstrip, c6ParseNum]
    simp [gemini429TryOutcome, geminiRetrySeconds, hinfo, hsecs,
      jsMathCeil_eq_ceil]
    norm_num
  · simp [standardRetryDelayMs, retryAfterTruthy, c6ParseNum, jsMathCeil_eq_ceil]
    norm_num

/-! ## Message sanitization of the prior context (core.ts lines 806-845) -/

def toolCallIdsOf (tcs : List ToolCallReq) : List String := tcs.map (·.id)

/-- Running update of `validToolCallIds`: an assistant message with a present
`tool_calls` array (any present array is truthy, even an empty one) replaces
the valid-id set with its tool-call ids; every other message leaves it. -/
def stepValidIds (valid : List String) (m : Message) : List String :=
  if m.role = .assistant ∧ m.tool_calls.isSome then
    toolCallIdsOf (m.tool_calls.getD [])
  else valid

/-- The keep decision of the context filter (core.ts lines 811-831): assistant
messages with tool_calls are kept (and reset the valid set); tool messages are
dropped when their name is absent or trims to empty (`!msg.name?.trim()`), or
when their `tool_call_id` is absent, empty (falsy) or not among the current
valid ids; all other messages are kept. -/
def keepMessage (valid : List String) (m : Message) : Bool :=
  if m.role = .assistant ∧ m.tool_calls.isSome then true
  else if m.role = .tool then
    if jsTrim (m.name.getD "") = "" then false
    else
      match m.tool_call_id with
      | none => false
      | some tid => if tid = "" then false else decide (tid ∈ valid)
  else true

/-- The first sanitization pass (`ctxMessages.filter(...)`, core.ts lines
811-831), with the mutable `validToolCallIds` set made explicit. -/
def contextFilter (valid : List String) : List Message → List Message
  | [] => []
  | m :: ms =>
    (if keepMessage valid m then [m] else []) ++
      contextFilter (stepValidIds valid m) ms

/-- The second sanitization pass (core.ts lines 834-842): on assistant
messages with a present `tool_calls` array, drop entries with falsy (empty)
ids and remove the array entirely when nothing remains. -/
def removeEmptyToolCalls (m : Message) : Message :=
  if m.role = .assistant then
    match m.tool_calls with
    | some tcs =>
      let f := tcs.filter (fun tc => tc.id != "")
      { m with tool_calls := if f.length = 0 then none else some f }
    | none => m
  else m

/-- The full sanitization of a prior context's messages: filter, then the
empty-tool-call fix, producing the sequence appended to `messagesToPass`. -/
def sanitizeContextMessages (msgs : List Message) : List Message :=
  (contextFilter [] msgs).map removeEmptyToolCalls

/-- The caller's context messages after sanitization.  The second pass's
`filtered.map(msg => { msg.tool_calls = ...; return msg; })` mutates the kept
message objects in place, and `filtered` holds references into the caller's
`toolCallContext.messages` array, so kept messages are mutated in the
caller's array as well while dropped messages are untouched.  This function
computes, structurally, what the caller's message list holds afterwards. -/
def sanitizeCallerEffect (valid : List String) : List Message → List Message
  | [] => []
  | m :: ms =>
    (if keepMessage valid m then removeEmptyToolCalls m else m) ::
      sanitizeCallerEffect (stepValidIds valid m) ms

/-- Orphan-freeness of a message sequence: every tool message has a
non-empty trimmed name and a non-empty `tool_call_id` occurring in the
tool-call id set of the most recent preceding assistant message that carries
a `tool_calls` array. -/
def orphanFreeFrom (valid : List String) : List Message → Bool
  | [] => true
  | m :: ms =>
    if m.role = .assistant ∧ m.tool_calls.isSome then
      orphanFreeFrom (toolCallIdsOf (m.tool_calls.getD [])) ms
    else if m.role = .tool then
      (jsTrim (m.name.getD "") != "") &&
      (match m.tool_call_id with
       | none => false
       | some tid => tid != "" && decide (tid ∈ valid)) &&
      orphanFreeFrom valid ms
    else orphanFreeFrom valid ms

/-! ## Claims C4 and C5: sanitizer correctness and frame effect -/

theorem removeEmptyToolCalls_of_not_assistant (m : Message)
    (h : m.role ≠ .assistant) : removeEmptyToolCalls m = m := by
  unfold removeEmptyToolCalls
  simp [h]

theorem removeEmptyToolCalls_of_none (m : Message)
    (h : m.tool_calls = none) : removeEmptyToolCalls m = m := by
  unfold removeEmptyToolCalls
  rw [h]
  split <;> rfl

theorem removeEmptyToolCalls_role (m : Message) :
    (removeEmptyToolCalls m).role = m.role := by
  unfold removeEmptyToolCalls
  split
  · split <;> rfl
  · rfl

theorem removeEmptyToolCalls_assistant_some (m : Message)
    (hrole : m.role = .assistant) (tcs : List ToolCallReq)
    (h : m.tool_calls = some tcs) :
    removeEmptyToolCalls m =
      { m with tool_calls :=
          if (tcs.filter (fun tc => tc.id != "")).length = 0 then none
          else some (tcs.filter (fun tc => tc.id != "")) } := by
  unfold removeEmptyToolCalls
  simp [hrole, h]

theorem orphanFreeFrom_mono (l : List Message) :
    ∀ (v1 v2 : List String), (∀ x ∈ v1, x ∈ v2) →
      orphanFreeFrom v1 l = true → orphanFreeFrom v2 l = true := by
  induction l with
  | nil => intro v1 v2 _ _; rfl
  | cons m ms ih =>
    intro v1 v2 hsub h
    by_cases hA : m.role = .assistant ∧ m.tool_calls.isSome
    · rw [orphanFreeFrom, if_pos hA] at h ⊢
      exact ih _ _ (fun x hx => hx) h
    · by_cases hT : m.role = .tool
      · rw [orphanFreeFrom, if_neg hA, if_pos hT] at h ⊢
        simp only [Bool.and_eq_true] at h ⊢
        refine ⟨⟨h.1.1, ?_⟩, ih _ _ hsub h.2⟩
        match htid : m.tool_call_id with
        | none => rw [htid] at h; exact absurd h.1.2 (by simp)
        | some tid =>
          rw [htid] at h
          simp only [Bool.and_eq_true, decide_eq_true_eq] at h ⊢
          exact ⟨h.1.2.1, hsub _ h.1.2.2⟩
      · rw [orphanFreeFrom, if_neg hA, if_neg hT] at h ⊢
        exact ih _ _ hsub h

theorem toolCallIdsOf_filter (tcs : List ToolCallReq) :
    toolCallIdsOf (tcs.filter (fun tc => tc.id != "")) =
      (toolCallIdsOf tcs).filter (fun x => x != "") := by
  unfold toolCallIdsOf
  rw [List.filter_map]
  rfl

theorem contextFilter_orphanFree (msgs : List Message) :
    ∀ valid : List String,
      orphanFreeFrom (valid.filter (fun x => x != ""))
        ((contextFilter valid msgs).map removeEmptyToolCalls) = true := by
  induction msgs with
  | nil => intro valid; rfl
  | cons m ms ih =>
    intro valid
    by_cases hA : m.role = .assistant ∧ m.tool_calls.isSome
    · obtain ⟨hrole, hsome⟩ := hA
      match htc : m.tool_calls with
      | none => rw [htc] at hsome; simp at hsome
      | some tcs =>
        have hkeep : keepMessage valid m = true := by
          unfold keepMessage
          rw [if_pos ⟨hrole, by rw [htc]; rfl⟩]
        have hstep : stepValidIds valid m = toolCallIdsOf tcs := by
          unfold stepValidIds
          rw [if_pos ⟨hrole, by rw [htc]; rfl⟩, htc]
          rfl
        rw [contextFilter, hkeep, hstep]
        simp only [if_true, List.singleton_append, List.map_cons]
        rw [removeEmptyToolCalls_assistant_some m hrole tcs htc]
        by_cases hf : (tcs.filter (fun tc => tc.id != "")).length = 0
        · -- the fixed assistant message loses its tool_calls array entirely
          rw [orphanFreeFrom]
          rw [if_neg (by simp [hf]), if_neg (by simp [hrole])]
          have hnil : (toolCallIdsOf tcs).filter (fun x => x != "") = [] := by
            rw [← toolCallIdsOf_filter]
            rcases List.length_eq_zero.mp hf with h
            rw [h]; rfl
          have h0 : orphanFreeFrom []
              ((contextFilter (toolCallIdsOf tcs) ms).map removeEmptyToolCalls) =
              true := by
            have h1 := ih (toolCallIdsOf tcs)
            rw [hnil] at h1
            exact h1
          exact orphanFreeFrom_mono _ [] _ (by simp) h0
        · -- the fixed assistant message keeps its filtered tool_calls
          rw [orphanFreeFrom]
          rw [if_pos (by simp [hf, hrole])]
          simp only [hf, if_false]
          have : toolCallIdsOf ((some (tcs.filter (fun tc => tc.id != ""))).getD []) =
              (toolCallIdsOf tcs).filter (fun x => x != "") := by
            simp [toolCallIdsOf_filter]
          rw [this]
          exact ih (toolCallIdsOf tcs)
    · have hstep : stepValidIds valid m = valid := by
        unfold stepValidIds
        rw [if_neg hA]
      by_cases hT : m.role = .tool
      · have hfix : removeEmptyToolCalls m = m :=
          removeEmptyToolCalls_of_not_assistant m (by rw [hT]; simp)
        by_cases hkeep : keepMessage valid m = true
        · rw [contextFilter, hkeep, hstep]
          simp only [if_true, List.singleton_append, List.map_cons, hfix]
          rw [orphanFreeFrom, if_neg hA, if_pos hT]
          unfold keepMessage at hkeep
          rw [if_neg hA, if_pos hT] at hkeep
          by_cases hname : jsTrim (m.name.getD "") = ""
          · rw [if_pos hname] at hkeep; exact absurd hkeep (by simp)
          · rw [if_neg hname] at hkeep
            simp only [Bool.and_eq_true]
            refine ⟨⟨by simp [hname], ?_⟩, ih valid⟩
            match htid : m.tool_call_id with
            | none => rw [htid] at hkeep; exact absurd hkeep (by simp)
            | some tid =>
              rw [htid] at hkeep
              have hkeep2 : (if tid = "" then false else decide (tid ∈ valid)) =
                  true := hkeep
              by_cases htid0 : tid = ""
              · rw [if_pos htid0] at hkeep2; exact absurd hkeep2 (by simp)
              · rw [if_neg htid0] at hkeep2
                simp only [decide_eq_true_eq] at hkeep2
                simp only [Bool.and_eq_true, decide_eq_true_eq]
                exact ⟨by simp [htid0],
                  List.mem_filter.mpr ⟨hkeep2, by simp [htid0]⟩⟩
        · rw [contextFilter, if_neg hkeep, hstep]
          simp only [List.nil_append]
          exact ih valid
      · have hkeep : keepMessage valid m = true := by
          unfold keepMessage
          rw [if_neg hA, if_neg hT]
        have hfix : removeEmptyToolCalls m = m := by
          by_cases hrole : m.role = .assistant
          · have : m.tool_calls = none := by
              by_contra hc
              exact hA ⟨hrole, Option.isSome_iff_ne_none.mpr hc⟩
            exact removeEmptyToolCalls_of_none m this
          · exact removeEmptyToolCalls_of_not_assistant m hrole
        rw [contextFilter, hkeep, hstep]
        simp only [if_true, List.singleton_append, List.map_cons, hfix]
        rw [orphanFreeFrom, if_neg hA, if_neg hT]
        exact ih valid

theorem removeEmptyToolCalls_no_empty_array (m : Message)
    (hrole : (removeEmptyToolCalls m).role = .assistant) :
    (removeEmptyToolCalls m).tool_calls ≠ some [] := by
  obtain ⟨r, c, n, ti, tc⟩ := m
  by_cases hr : r = MessageRole.assistant
  · subst hr
    match tc with
    | none =>
      show (none : Option (List ToolCallReq)) ≠ some []
      simp
    | some tcs =>
      show (if (tcs.filter (fun tc => tc.id != "")).length = 0 then
              (none : Option (List ToolCallReq))
            else some (tcs.filter (fun tc => tc.id != ""))) ≠ some []
      by_cases hf : (tcs.filter (fun tc => tc.id != "")).length = 0
      · rw [if_pos hf]
        simp
      · rw [if_neg hf]
        intro hc
        simp only [Option.some_inj] at hc
        exact hf (by rw [hc]; rfl)
  · rw [removeEmptyToolCalls_of_not_assistant _ hr] at hrole
    exact absurd hrole hr

/-- Claim C4: for every prior context appended to the transmitted message
list, the sanitizer's output contains no orphaned tool message: every tool
message that survives has a non-empty trimmed name and a `tool_call_id`
matching an id in the tool-call set of the most recent preceding assistant
message that carries tool_calls, and no assistant message retains an empty
`tool_calls` array. -/
theorem sanitizer_no_orphans :
    ∀ msgs : List Message,
      orphanFreeFrom [] (sanitizeContextMessages msgs) = true ∧
      ∀ m ∈ sanitizeContextMessages msgs, m.role = .assistant →
        m.tool_calls ≠ some [] := by
  intro msgs
  constructor
  · have h := contextFilter_orphanFree msgs []
    exact h
  · intro m hm hrole
    unfold sanitizeContextMessages at hm
    rcases List.mem_map.mp hm with ⟨m', _, rfl⟩
    exact removeEmptyToolCalls_no_empty_array m' hrole

/-- Witness for C4 on a concrete history: an assistant announcing call "a",
a matching tool result (kept), an orphaned tool result "zz" (dropped), and a
nameless tool result (dropped). -/
theorem sanitizer_no_orphans_witness :
    (orphanFreeFrom [] (sanitizeContextMessages
      [{ role := .assistant,
         tool_calls := some [{ id := "a", name := "f", arguments := "" }] },
       { role := .tool, name := some "f", tool_call_id := some "a" },
       { role := .tool, name := some "f", tool_call_id := some "zz" },
       { role := .tool, name := some "", tool_call_id := some "a" }]) = true) ∧
    (({ role := .assistant,
        tool_calls := some [{ id := "a", name := "f", arguments := "" }] } :
        Message).tool_calls ≠ some []) :=
  ⟨(sanitizer_no_orphans _).1,
   (sanitizer_no_orphans
      [{ role := .assistant,
         tool_calls := some [{ id := "a", name := "f", arguments := "" }] },
       { role := .tool, name := some "f", tool_call_id := some "a" },
       { role := .tool, name := some "f", tool_call_id := some "zz" },
       { role := .tool, name := some "", tool_call_id := some "a" }]).2
     _ (by decide) (by decide)⟩

theorem keepMessage_false_is_tool (valid : List String) (m : Message)
    (h : keepMessage valid m = false) : m.role = .tool := by
  unfold keepMessage at h
  by_cases hA : m.role = .assistant ∧ m.tool_calls.isSome
  · rw [if_pos hA] at h; exact absurd h (by simp)
  · rw [if_neg hA] at h
    by_cases hT : m.role = .tool
    · exact hT
    · rw [if_neg hT] at h; exact absurd h (by simp)

/-- A message whose `tool_calls` (when present on an assistant message) is a
non-empty array of non-empty ids is structurally unchanged by the
empty-tool-call fix. -/
theorem removeEmptyToolCalls_eq_self (m : Message)
    (h : m.role = .assistant →
      match m.tool_calls with
      | some tcs => tcs ≠ [] ∧ ∀ tc ∈ tcs, tc.id ≠ ""
      | none => True) :
    removeEmptyToolCalls m = m := by
  by_cases hr : m.role = .assistant
  · match htc : m.tool_calls with
    | none => exact removeEmptyToolCalls_of_none m htc
    | some tcs =>
      have hcond := h hr
      rw [htc] at hcond
      obtain ⟨hne, hids⟩ := hcond
      have hfilter : tcs.filter (fun tc => tc.id != "") = tcs := by
        apply List.filter_eq_self.mpr
        intro tc htc'
        simpa using hids tc htc'
      rw [removeEmptyToolCalls_assistant_some m hr tcs htc, hfilter]
      have hlen : ¬ tcs.length = 0 := by
        intro hc
        exact hne (List.length_eq_zero.mp hc)
      simp only [hlen, if_false]
      rw [← htc]
  · exact removeEmptyToolCalls_of_not_assistant m hr

/-- Claim C5 (amended): the sanitizer's only side effect on the caller's
objects is the in-place empty-tool-call fix on the prior context's kept
messages — structurally, the caller's context messages afterwards are
exactly `map removeEmptyToolCalls` of the originals — and whenever every
assistant message's `tool_calls` array (if present) is non-empty with
non-empty ids, the caller's messages are unchanged.  (The base conversation
is never mutated: `optimizeInputs` builds fresh message objects.) -/
theorem sanitizer_caller_effect :
    (∀ (valid : List String) (msgs : List Message),
      sanitizeCallerEffect valid msgs = msgs.map removeEmptyToolCalls) ∧
    (∀ (valid : List String) (msgs : List Message),
      (∀ m ∈ msgs, m.role = .assistant →
        match m.tool_calls with
        | some tcs => tcs ≠ [] ∧ ∀ tc ∈ tcs, tc.id ≠ ""
        | none => True) →
      sanitizeCallerEffect valid msgs = msgs) := by
  have hmap : ∀ (valid : List String) (msgs : List Message),
      sanitizeCallerEffect valid msgs = msgs.map removeEmptyToolCalls := by
    intro valid msgs
    induction msgs generalizing valid with
    | nil => rfl
    | cons m ms ih =>
      rw [sanitizeCallerEffect, List.map_cons, ih]
      by_cases hkeep : keepMessage valid m = true
      · rw [if_pos hkeep]
      · rw [if_neg hkeep]
        have htool := keepMessage_false_is_tool valid m
          (Bool.not_eq_true _ ▸ hkeep)
        rw [removeEmptyToolCalls_of_not_assistant m (by rw [htool]; simp)]
  refine ⟨hmap, ?_⟩
  intro valid msgs h
  rw [hmap valid msgs]
  conv_rhs => rw [← List.map_id msgs]
  apply List.map_congr_left
  intro m hm
  exact removeEmptyToolCalls_eq_self m (h m hm)

/-- Counterexample to C5 as stated: an assistant context message carrying a
tool call with an empty id is mutated in place — after sanitization the
caller's message object has lost its `tool_calls` array. -/
theorem sanitizer_caller_effect_counterexample :
    sanitizeCallerEffect []
      [{ role := .assistant,
         tool_calls := some [{ id := "", name := "f", arguments := "x" }] }] ≠
      [{ role := .assistant,
         tool_calls := some [{ id := "", name := "f", arguments := "x" }] }] := by
  decide

/-- Witness for the amended C5 at a concrete input: a context whose
assistant message carries a well-formed tool call is untouched. -/
theorem sanitizer_caller_effect_witness :
    sanitizeCallerEffect []
      [{ role := .assistant,
         tool_calls := some [{ id := "a", name := "f", arguments := "x" }] },
       { role := .tool, name := some "f", tool_call_id := some "a" }] =
      [{ role := .assistant,
         tool_calls := some [{ id := "a", name := "f", arguments := "x" }] },
       { role := .tool, name := some "f", tool_call_id := some "a" }] :=
  sanitizer_caller_effect.2 [] _ (by
    intro m hm hrole
    simp only [List.mem_cons, List.not_mem_nil, or_false] at hm
    rcases hm with rfl | rfl
    · exact ⟨by decide, by decide⟩
    · exact absurd hrole (by decide))

/-! ## Streaming tool-call accumulation (core.ts lines 49-161) -/

/-- A streamed tool-call fragment: optional stream `index`, optional `id`,
optional name delta and optional argument-string delta (`function?.name`,
`function?.arguments`); `none` models an absent (`undefined`) field. -/
structure ToolCallDelta where
  index : Option Nat := none
  id : Option String := none
  name : Option String := none
  arguments : Option String := none
deriving DecidableEq, Repr

/-- The truthy id carried by a delta: `deltaToolCall.id` when it is a
non-empty string (the empty string is falsy in JavaScript). -/
def truthyId (d : ToolCallDelta) : Option String :=
  match d.id with
  | some s => if s = "" then none else some s
  | none => none

/-- `ToolAccumulatorEntry`: an in-progress accumulated tool call with its
`__order` insertion counter and optional registered stream index. -/
structure ToolAccumulatorEntry where
  id : String
  name : String
  arguments : String
  index : Option Nat
  order : Nat
deriving DecidableEq, Repr

/-- `Map.get` on a JavaScript `Map` modelled as an association list with
unique keys in insertion order. -/
def mapGet [DecidableEq κ] (m : List (κ × Nat)) (k : κ) : Option Nat :=
  (m.find? (fun p => decide (p.1 = k))).map (·.2)

/-- `Map.set`: updates the value in place when the key is present (keeping
its insertion position), appends otherwise. -/
def mapSet [DecidableEq κ] (m : List (κ × Nat)) (k : κ) (v : Nat) :
    List (κ × Nat) :=
  if (m.find? (fun p => decide (p.1 = k))).isSome then
    m.map (fun p => if p.1 = k then (k, v) else p)
  else m ++ [(k, v)]

/-- `Map.delete`: removes the binding of `k` when present. -/
def mapDelete [DecidableEq κ] (m : List (κ × Nat)) (k : κ) : List (κ × Nat) :=
  m.filter (fun p => decide (p.1 ≠ k))

/-- The accumulator state: `entries` is an append-only store of the shared
mutable entry objects (positions act as object references, so that an entry
reachable from both maps is a single object, as in the source); `byIndex`
and `byId` are the two lookup maps holding references; `orderCounter` is
`orderCounterRef.value`; `synthCounter` is an abstract monotone clock
consumed by `synthIdForIndex` (which derives fresh ids from `Date.now()` and
`Math.random()` in the source). -/
structure AccState where
  entries : List ToolAccumulatorEntry
  byIndex : List (Nat × Nat)
  byId : List (String × Nat)
  orderCounter : Nat
  synthCounter : Nat
deriving Repr

def initialAccState : AccState :=
  { entries := [], byIndex := [], byId := [], orderCounter := 0,
    synthCounter := 0 }

/-- The provisional id of a freshly created entry (core.ts line 79):
the delta's truthy id, else `synthIdForIndex(idx ?? byId.size)`. -/
def provisionalIdOf (synth : Nat → Nat → String) (st : AccState)
    (d : ToolCallDelta) : String :=
  match truthyId d with
  | some idv => idv
  | none => synth st.synthCounter (d.index.getD st.byId.length)

/-- The freshly created entry object (core.ts lines 80-89). -/
def createdEntry (synth : Nat → Nat → String) (st : AccState)
    (d : ToolCallDelta) : ToolAccumulatorEntry :=
  { id := provisionalIdOf synth st d, name := "", arguments := "",
    index := d.index, order := st.orderCounter }

/-- Entry creation (core.ts lines 76-92): the fresh entry is appended to the
store and registered under its index (when present) and its provisional
id. -/
def createEntry (synth : Nat → Nat → String) (st : AccState)
    (d : ToolCallDelta) : AccState × Nat :=
  ({ entries := st.entries ++ [createdEntry synth st d],
     byIndex :=
       match d.index with
       | some ix => mapSet st.byIndex ix st.entries.length
       | none => st.byIndex,
     byId := mapSet st.byId (provisionalIdOf synth st d) st.entries.length,
     orderCounter := st.orderCounter + 1,
     synthCounter :=
       match truthyId d with
       | some _ => st.synthCounter
       | none => st.synthCounter + 1 }, st.entries.length)

/-- One argument-delta step as the implementation performs it (core.ts
lines 112-146): append the chunk unless the accumulated string is non-empty
and already parses as complete JSON (`jsonComplete` abstracts `JSON.parse`
succeeding), in which case the chunk is discarded. -/
def argStep (jsonComplete : String → Bool) (a : String) :
    Option String → String
  | none => a
  | some c => if a ≠ "" ∧ jsonComplete a then a else a ++ c

/-- The entry fields after the shared updates of `accumulateToolCallDelta`
(core.ts lines 94-146): the id is replaced by a truthy delta id (line 97),
the index is registered once (line 103), a truthy name delta replaces the
name (lines 108-110), and the argument chunk is appended per `argStep`. -/
def updatedEntry (jsonComplete : String → Bool) (e : ToolAccumulatorEntry)
    (d : ToolCallDelta) : ToolAccumulatorEntry :=
  { id := (truthyId d).getD e.id,
    name :=
      match d.name with
      | some nm => if nm ≠ "" then nm else e.name
      | none => e.name,
    arguments := argStep jsonComplete e.arguments d.arguments,
    index :=
      match e.index with
      | none => d.index
      | some ix => some ix,
    order := e.order }

/-- The `byId` map after the re-keying step (core.ts lines 94-99): when the
delta carries a truthy id different from the entry's current id, the entry
is removed from `byId` under the old key and re-inserted under the new
one. -/
def updatedById (st : AccState) (r : Nat) (e : ToolAccumulatorEntry)
    (d : ToolCallDelta) : List (String × Nat) :=
  match truthyId d with
  | some idv =>
    if e.id ≠ idv then mapSet (mapDelete st.byId e.id) idv r else st.byId
  | none => st.byId

/-- The `byIndex` map after the index-registration step (core.ts lines
101-105): a delta index is registered only when the entry has none yet. -/
def updatedByIndex (st : AccState) (r : Nat) (e : ToolAccumulatorEntry)
    (d : ToolCallDelta) : List (Nat × Nat) :=
  match d.index with
  | some ix => if e.index = none then mapSet st.byIndex ix r else st.byIndex
  | none => st.byIndex

/-- The post-lookup updates of `accumulateToolCallDelta` (core.ts lines
94-146), applied to the entry object at reference `r`.  The source applies
the id re-key, index registration, name replacement and argument append as
sequential mutations; each reads only fields the earlier steps do not write
(the re-key reads the pre-update `entry.id`, the registration the pre-update
`entry.index`), so the state components are computed independently here. -/
def entryUpdate (jsonComplete : String → Bool) (st : AccState) (r : Nat)
    (d : ToolCallDelta) : AccState :=
  match st.entries.get? r with
  | none => st
  | some e =>
    { entries := st.entries.set r (updatedEntry jsonComplete e d),
      byIndex := updatedByIndex st r e d,
      byId := updatedById st r e d,
      orderCounter := st.orderCounter,
      synthCounter := st.synthCounter }

/-- The index-lookup-or-create tail of the entry lookup (core.ts lines
73-92): taken when no truthy id matched in `byId`. -/
def accumulateByIndexOrCreate (jsonComplete : String → Bool)
    (synth : Nat → Nat → String) (st : AccState) (d : ToolCallDelta) :
    AccState :=
  match d.index with
  | some ix =>
    match mapGet st.byIndex ix with
    | some r => entryUpdate jsonComplete st r d
    | none =>
      let c := createEntry synth st d
      entryUpdate jsonComplete c.1 c.2 d
  | none =>
    let c := createEntry synth st d
    entryUpdate jsonComplete c.1 c.2 d

/-- `accumulateToolCallDelta` (core.ts lines 58-147): look up an existing
entry by truthy id first, then by index; create a fresh entry otherwise;
then apply the shared updates. -/
def accumulateToolCallDelta (jsonComplete : String → Bool)
    (synth : Nat → Nat → String) (st : AccState) (deltaToolCall : ToolCallDelta) :
    AccState :=
  match truthyId deltaToolCall with
  | some idv =>
    match mapGet st.byId idv with
    | some r => entryUpdate jsonComplete st r deltaToolCall
    | none => accumulateByIndexOrCreate jsonComplete synth st deltaToolCall
  | none => accumulateByIndexOrCreate jsonComplete synth st deltaToolCall

/-- Consume a whole fragment stream from the empty accumulator. -/
def runAccumulator (jsonComplete : String → Bool)
    (synth : Nat → Nat → String) (deltas : List ToolCallDelta) : AccState :=
  deltas.foldl (accumulateToolCallDelta jsonComplete synth) initialAccState

/-- Insertion into a list sorted by a numeric key (used to model
`Array.prototype.sort` with the numeric comparators of
`assembleToolCalls`; the sort keys are pairwise distinct there, so any
correct sort produces this result). -/
def insertByKey (key : ToolAccumulatorEntry → Nat) (e : ToolAccumulatorEntry) :
    List ToolAccumulatorEntry → List ToolAccumulatorEntry
  | [] => [e]
  | x :: xs => if key e ≤ key x then e :: x :: xs else x :: insertByKey key e xs

def sortByKey (key : ToolAccumulatorEntry → Nat)
    (l : List ToolAccumulatorEntry) : List ToolAccumulatorEntry :=
  l.foldr (insertByKey key) []

/-- `Map.values()`: the stored entries referenced by a map, in the map's
insertion order. -/
def mapEntries [DecidableEq κ] (st : AccState) (m : List (κ × Nat)) :
    List ToolAccumulatorEntry :=
  m.filterMap (fun p => st.entries.get? p.2)

def toToolCallReq (e : ToolAccumulatorEntry) : ToolCallReq :=
  { id := e.id, name := e.name, arguments := e.arguments }

/-- `assembleToolCalls` (core.ts lines 149-161): when any entry is
registered by index, the `byIndex` values sorted by stream index; otherwise
the `byId` values sorted by the `__order` insertion counter. -/
def assembleToolCalls (st : AccState) : List ToolCallReq :=
  if st.byIndex.length > 0 then
    (sortByKey (fun e => e.index.getD 0) (mapEntries st st.byIndex)).map
      toToolCallReq
  else
    (sortByKey (fun e => e.order) (mapEntries st st.byId)).map toToolCallReq

/-- The final stream assembly (core.ts lines 1019-1025): assembled calls
whose accumulated name is non-empty after trimming. -/
def assembledNamedToolCalls (st : AccState) : List ToolCallReq :=
  (assembleToolCalls st).filter
    (fun tc => tc.name != "" && jsTrim tc.name != "")

/-- The specification-side accumulation of C1: concatenate the argument
deltas in order up to and including the first delta after which the
accumulated string parses as complete JSON; every later delta is
discarded. -/
def specAccumArgs (jsonComplete : String → Bool) :
    String → List String → String
  | acc, [] => acc
  | acc, c :: cs =>
    if acc ≠ "" ∧ jsonComplete acc then acc
    else specAccumArgs jsonComplete (acc ++ c) cs

/-! ## Claim C1: stable-id streams accumulate into one request -/

/-- Invariant while consuming a stream whose fragments all carry the single
stable id `i`: exactly one entry exists, keyed by `i`, and the index map
registers at most that entry. -/
def StableIdInv (i : String) (st : AccState) (e : ToolAccumulatorEntry) :
    Prop :=
  st.entries = [e] ∧ e.id = i ∧ st.byId = [(i, 0)] ∧
  (match e.index with
   | none => st.byIndex = []
   | some ix => st.byIndex = [(ix, 0)])

theorem specAccumArgs_of_complete (jc : String → Bool) (a : String)
    (h : a ≠ "" ∧ jc a) : ∀ l, specAccumArgs jc a l = a := by
  intro l
  cases l with
  | nil => rfl
  | cons c cs => rw [specAccumArgs, if_pos h]

theorem specAccumArgs_step_some (jc : String → Bool) (a c : String)
    (rest : List String) :
    specAccumArgs jc a (c :: rest) =
      specAccumArgs jc (argStep jc a (some c)) rest := by
  rw [specAccumArgs, argStep]
  by_cases h : a ≠ "" ∧ jc a
  · rw [if_pos h, if_pos h, specAccumArgs_of_complete jc a h]
  · rw [if_neg h, if_neg h]

theorem stableId_step (jc : String → Bool) (synth : Nat → Nat → String)
    (i : String) (hi : i ≠ "") (st : AccState) (e : ToolAccumulatorEntry)
    (d : ToolCallDelta) (hd : d.id = some i) (hinv : StableIdInv i st e) :
    StableIdInv i (accumulateToolCallDelta jc synth st d)
      (updatedEntry jc e d) := by
  obtain ⟨hent, hid, hbyid, hbyidx⟩ := hinv
  have ht : truthyId d = some i := by simp [truthyId, hd, hi]
  have hg : mapGet st.byId i = some 0 := by rw [hbyid]; simp [mapGet]
  have hget : st.entries.get? 0 = some e := by rw [hent]; rfl
  rw [accumulateToolCallDelta, ht]
  simp only [hg]
  rw [entryUpdate, hget]
  refine ⟨?_, ?_, ?_, ?_⟩
  · show st.entries.set 0 (updatedEntry jc e d) = [updatedEntry jc e d]
    rw [hent]
    rfl
  · show (updatedEntry jc e d).id = i
    simp [updatedEntry, ht]
  · show updatedById st 0 e d = [(i, 0)]
    simp [updatedById, ht, hid, hbyid]
  · show (match (updatedEntry jc e d).index with
          | none => updatedByIndex st 0 e d = []
          | some ix => updatedByIndex st 0 e d = [(ix, 0)])
    cases heix : e.index with
    | none =>
      rw [heix] at hbyidx
      cases hdix : d.index with
      | none =>
        have h1 : (updatedEntry jc e d).index = none := by
          simp [updatedEntry, heix, hdix]
        rw [h1]
        simp [updatedByIndex, hdix, hbyidx]
      | some ix =>
        have h1 : (updatedEntry jc e d).index = some ix := by
          simp [updatedEntry, heix, hdix]
        rw [h1]
        simp [updatedByIndex, hdix, heix, hbyidx, mapSet]
    | some ix0 =>
      rw [heix] at hbyidx
      have h1 : (updatedEntry jc e d).index = some ix0 := by
        simp [updatedEntry, heix]
      rw [h1]
      cases hdix : d.index with
      | none => simp [updatedByIndex, hdix, hbyidx]
      | some ix => simp [updatedByIndex, hdix, heix, hbyidx]

theorem list_set_concat (l : List α) (a b : α) :
    (l ++ [a]).set l.length b = l ++ [b] := by
  induction l with
  | nil => rfl
  | cons x xs ih => simp [List.set, ih]

theorem list_get?_concat (l : List α) (a : α) :
    (l ++ [a]).get? l.length = some a := by
  induction l with
  | nil => rfl
  | cons x xs ih => simp [ih]

/-- Creation followed by the shared updates, as one state. -/
theorem entryUpdate_createEntry (jc : String → Bool)
    (synth : Nat → Nat → String) (st : AccState) (d : ToolCallDelta) :
    entryUpdate jc (createEntry synth st d).1 (createEntry synth st d).2 d =
      { entries :=
          st.entries ++ [updatedEntry jc (createdEntry synth st d) d],
        byIndex :=
          updatedByIndex (createEntry synth st d).1 st.entries.length
            (createdEntry synth st d) d,
        byId :=
          updatedById (createEntry synth st d).1 st.entries.length
            (createdEntry synth st d) d,
        orderCounter := st.orderCounter + 1,
        synthCounter :=
          match truthyId d with
          | some _ => st.synthCounter
          | none => st.synthCounter + 1 } := by
  have hget : (createEntry synth st d).1.entries.get? st.entries.length =
      some (createdEntry synth st d) := by
    show (st.entries ++ [createdEntry synth st d]).get? st.entries.length =
      some (createdEntry synth st d)
    exact list_get?_concat _ _
  rw [entryUpdate]
  have h2 : (createEntry synth st d).2 = st.entries.length := rfl
  rw [h2, hget]
  show ({ entries := (createEntry synth st d).1.entries.set st.entries.length
            (updatedEntry jc (createdEntry synth st d) d),
          byIndex := updatedByIndex (createEntry synth st d).1
            st.entries.length (createdEntry synth st d) d,
          byId := updatedById (createEntry synth st d).1 st.entries.length
            (createdEntry synth st d) d,
          orderCounter := (createEntry synth st d).1.orderCounter,
          synthCounter := (createEntry synth st d).1.synthCounter } :
          AccState) = _
  have hset : (createEntry synth st d).1.entries.set st.entries.length
      (updatedEntry jc (createdEntry synth st d) d) =
      st.entries ++ [updatedEntry jc (createdEntry synth st d) d] := by
    show (st.entries ++ [createdEntry synth st d]).set st.entries.length _ =
      _
    exact list_set_concat _ _ _
  rw [hset]
  rfl

theorem stableId_create (jc : String → Bool) (synth : Nat → Nat → String)
    (i : String) (hi : i ≠ "") (d : ToolCallDelta) (hd : d.id = some i) :
    StableIdInv i (accumulateToolCallDelta jc synth initialAccState d)
      (updatedEntry jc (createdEntry synth initialAccState d) d) := by
  have ht : truthyId d = some i := by simp [truthyId, hd, hi]
  have hprov : provisionalIdOf synth initialAccState d = i := by
    simp [provisionalIdOf, ht]
  have hcid : (createdEntry synth initialAccState d).id = i := by
    simp [createdEntry, hprov]
  have hcidx : (createdEntry synth initialAccState d).index = d.index := rfl
  have hstep : accumulateToolCallDelta jc synth initialAccState d =
      entryUpdate jc (createEntry synth initialAccState d).1
        (createEntry synth initialAccState d).2 d := by
    rw [accumulateToolCallDelta, ht]
    have hg : mapGet initialAccState.byId i = none := rfl
    simp only [hg]
    rw [accumulateByIndexOrCreate]
    cases hdix : d.index with
    | none => rfl
    | some ix =>
      have hgx : mapGet initialAccState.byIndex ix = none := rfl
      simp only [hgx]
  rw [hstep, entryUpdate_createEntry]
  refine ⟨rfl, ?_, ?_, ?_⟩
  · simp [updatedEntry, ht]
  · show updatedById (createEntry synth initialAccState d).1 0
      (createdEntry synth initialAccState d) d = [(i, 0)]
    rw [updatedById]
    simp only [ht]
    rw [if_neg (by rw [hcid]; simp)]
    show mapSet initialAccState.byId (provisionalIdOf synth initialAccState d)
      0 = [(i, 0)]
    rw [hprov]
    rfl
  · have hupidx : (updatedEntry jc (createdEntry synth initialAccState d)
        d).index = d.index := by
      simp only [updatedEntry, hcidx]
      cases d.index <;> rfl
    rw [hupidx]
    cases hdix : d.index with
    | none =>
      show updatedByIndex (createEntry synth initialAccState d).1 0
        (createdEntry synth initialAccState d) d = []
      rw [updatedByIndex]
      simp only [hdix]
      show (match d.index with
            | some ix => mapSet initialAccState.byIndex ix 0
            | none => initialAccState.byIndex) = []
      simp only [hdix]
      rfl
    | some ix =>
      show updatedByIndex (createEntry synth initialAccState d).1 0
        (createdEntry synth initialAccState d) d = [(ix, 0)]
      rw [updatedByIndex]
      simp only [hdix]
      rw [if_neg (by rw [hcidx, hdix]; simp)]
      show (match d.index with
            | some ix => mapSet initialAccState.byIndex ix 0
            | none => initialAccState.byIndex) = [(ix, 0)]
      simp only [hdix]
      rfl

theorem stableId_fold (jc : String → Bool) (synth : Nat → Nat → String)
    (i : String) (hi : i ≠ "") :
    ∀ (ds : List ToolCallDelta) (st : AccState) (e : ToolAccumulatorEntry),
      (∀ d ∈ ds, d.id = some i) → StableIdInv i st e →
      ∃ e', StableIdInv i
          (ds.foldl (accumulateToolCallDelta jc synth) st) e' ∧
        e'.arguments =
          specAccumArgs jc e.arguments (ds.filterMap (·.arguments)) := by
  intro ds
  induction ds with
  | nil =>
    intro st e _ hinv
    exact ⟨e, hinv, rfl⟩
  | cons d ds ih =>
    intro st e hall hinv
    have hstep := stableId_step jc synth i hi st e d (hall d (by simp)) hinv
    obtain ⟨e', hinv', harg⟩ :=
      ih (accumulateToolCallDelta jc synth st d) (updatedEntry jc e d)
        (fun f hf => hall f (List.mem_cons_of_mem _ hf)) hstep
    refine ⟨e', hinv', ?_⟩
    rw [harg]
    have hup : (updatedEntry jc e d).arguments =
        argStep jc e.arguments d.arguments := rfl
    rw [hup, List.filterMap_cons]
    cases ha : d.arguments with
    | none => rfl
    | some c =>
      exact (specAccumArgs_step_some jc e.arguments c
        (ds.filterMap (·.arguments))).symm

/-- Claim C1: a fragment stream whose every fragment carries the single
stable (non-empty) id `i` accumulates into exactly one entry for that id,
whose arguments string is the in-order concatenation of the stream's
argument deltas up to and including the first delta after which the
accumulated string parses as complete JSON; all later argument deltas are
discarded. -/
theorem streaming_accumulator_stable_id (jc : String → Bool)
    (synth : Nat → Nat → String) (i : String) (fs : List ToolCallDelta)
    (hi : i ≠ "") (hne : fs ≠ []) (hall : ∀ f ∈ fs, f.id = some i) :
    (runAccumulator jc synth fs).entries.map
      (fun e => (e.id, e.arguments)) =
      [(i, specAccumArgs jc "" (fs.filterMap (·.arguments)))] := by
  match fs, hne with
  | d :: ds, _ =>
    rw [runAccumulator, List.foldl_cons]
    have hc := stableId_create jc synth i hi d (hall d (by simp))
    obtain ⟨e', hinv, harg⟩ :=
      stableId_fold jc synth i hi ds _ _
        (fun f hf => hall f (List.mem_cons_of_mem _ hf)) hc
    obtain ⟨hent, hid, _, _⟩ := hinv
    rw [hent, List.map_cons, List.map_nil]
    have hca : (updatedEntry jc (createdEntry synth initialAccState d)
        d).arguments = argStep jc "" d.arguments := rfl
    rw [harg, hca, hid, List.filterMap_cons]
    cases ha : d.arguments with
    | none => rfl
    | some c =>
      rw [specAccumArgs_step_some jc "" c (ds.filterMap (·.arguments))]

/-- Witness for C1: three fragments with stable id "abc"; the third
argument delta arrives after the accumulated string "ab" is complete (for
the chosen completeness test) and is discarded. -/
theorem streaming_accumulator_stable_id_witness :
    (runAccumulator (fun s => s == "ab") (fun _ _ => "tool_synth")
      [{ index := none, id := some "abc", name := some "search",
         arguments := some "a" },
       { index := some 2, id := some "abc", arguments := some "b" },
       { index := none, id := some "abc", arguments := some "XY" }]).entries.map
      (fun e => (e.id, e.arguments)) =
      [("abc", specAccumArgs (fun s => s == "ab") ""
        (([{ index := none, id := some "abc", name := some "search",
             arguments := some "a" },
           { index := some 2, id := some "abc", arguments := some "b" },
           { index := none, id := some "abc", arguments := some "XY" }] :
           List ToolCallDelta).filterMap (·.arguments)))] :=
  streaming_accumulator_stable_id (fun s => s == "ab")
    (fun _ _ => "tool_synth") "abc" _ (by decide) (by decide) (by decide)

/-! ## Structured-output array repair (`normalizeBlueprintData`, core.ts
lines 551-632) -/

mutual

def jsize : JValue → Nat
  | .null => 1
  | .bool _ => 1
  | .num _ => 1
  | .str _ => 1
  | .arr xs => 1 + jsizeList xs
  | .obj fs => 1 + jsizeFields fs

def jsizeList : List JValue → Nat
  | [] => 0
  | x :: xs => jsize x + jsizeList xs

def jsizeFields : List (String × JValue) → Nat
  | [] => 0
  | p :: fs => 1 + jsize p.2 + jsizeFields fs

end

theorem jsize_obj (fs : List (String × JValue)) :
    jsize (.obj fs) = 1 + jsizeFields fs := rfl

theorem jsize_arr (xs : List JValue) :
    jsize (.arr xs) = 1 + jsizeList xs := rfl

theorem jsize_le_of_mem_list (x : JValue) (xs : List JValue) (h : x ∈ xs) :
    jsize x ≤ jsizeList xs := by
  induction xs with
  | nil => cases h
  | cons y ys ih =>
    rw [jsizeList]
    rcases List.mem_cons.mp h with rfl | h'
    · omega
    · have := ih h'
      omega

theorem jsize_lt_of_mem_arr (x : JValue) (xs : List JValue) (h : x ∈ xs) :
    jsize x < jsize (.arr xs) := by
  have := jsize_le_of_mem_list x xs h
  rw [jsize]
  omega

theorem jsize_lt_of_mem_fields (p : String × JValue)
    (fs : List (String × JValue)) (h : p ∈ fs) : jsize p.2 < jsizeFields fs := by
  induction fs with
  | nil => cases h
  | cons q qs ih =>
    rw [jsizeFields]
    rcases List.mem_cons.mp h with rfl | h'
    · omega
    · have := ih h'
      omega

theorem getField_mem (fs : List (String × JValue)) (k : String) (v : JValue)
    (h : getField fs k = some v) : ∃ k', (k', v) ∈ fs := by
  unfold getField at h
  match hf : fs.find? (fun p => p.1 == k) with
  | none => rw [hf] at h; cases h
  | some p =>
    rw [hf] at h
    have hm := List.mem_of_find?_eq_some hf
    refine ⟨p.1, ?_⟩
    have : p.2 = v := by simpa using h
    rw [← this]
    exact hm

theorem jsize_lt_of_getField (fs : List (String × JValue)) (k : String)
    (v : JValue) (h : getField fs k = some v) : jsize v < jsizeFields fs := by
  obtain ⟨k', hm⟩ := getField_mem fs k v h
  exact jsize_lt_of_mem_fields (k', v) fs hm

/-- Applies a pending field update when one was computed. -/
def setFieldOpt (fs : List (String × JValue)) (k : String) :
    Option JValue → List (String × JValue)
  | some v => setField fs k v
  | none => fs

/-- The string-array repair for `pitfalls`/`frameworks`/`colorPalette`
(core.ts lines 607-629): an object becomes the array of its string values
(non-strings silently discarded), an array keeps only its string members,
everything else is untouched. -/
def stringArrFix (v : JValue) : JValue :=
  match v with
  | .obj es =>
    .arr (es.filterMap (fun p =>
      match p.2 with
      | .str s => some (.str s)
      | _ => none))
  | .arr xs =>
    .arr (xs.filter (fun x =>
      match x with
      | .str _ => true
      | _ => false))
  | other => other

mutual

/-- `normalizeBlueprintData` (core.ts lines 551-632): primitives pass
through, arrays are normalized elementwise, objects are copied with their
known collection fields repaired. -/
def normalizeBlueprintData (raw : JValue) : JValue :=
  match raw with
  | .arr xs => .arr (xs.attach.map (fun x => normalizeBlueprintData x.1))
  | .obj fs => .obj (normFields fs)
  | v => v
termination_by (jsize raw, 0)
decreasing_by
  · exact Prod.Lex.left _ _ (jsize_lt_of_mem_arr x.1 xs x.2)
  · apply Prod.Lex.left
    rw [jsize]
    omega

/-- The field repairs of the object case, in source order (views,
implementationRoadmap, initialPhase, pitfalls, frameworks, colorPalette).
The six keys are pairwise distinct and each block of the source reads a key
none of the earlier blocks writes, so every repaired value is computed from
the original object and the updates are applied in sequence. -/
def normFields (fs : List (String × JValue)) : List (String × JValue) :=
  let u1 : Option JValue :=
    match h1 : getField fs "views" with
    | some v => some (collectionFix "name" v)
    | none => none
  let u2 : Option JValue :=
    match h2 : getField fs "implementationRoadmap" with
    | some v => some (collectionFix "phase" v)
    | none => none
  let u3 : Option JValue :=
    match h3 : getField fs "initialPhase" with
    | some v => some (initialPhaseFix v)
    | none => none
  let u4 : Option JValue :=
    match getField fs "pitfalls" with
    | some v => some (stringArrFix v)
    | none => none
  let u5 : Option JValue :=
    match getField fs "frameworks" with
    | some v => some (stringArrFix v)
    | none => none
  let u6 : Option JValue :=
    match getField fs "colorPalette" with
    | some v => some (stringArrFix v)
    | none => none
  setFieldOpt (setFieldOpt (setFieldOpt (setFieldOpt (setFieldOpt
    (setFieldOpt fs "views" u1) "implementationRoadmap" u2)
    "initialPhase" u3) "pitfalls" u4) "frameworks" u5) "colorPalette" u6
termination_by (jsizeFields fs, 1)
decreasing_by
  · exact Prod.Lex.left _ _ (jsize_lt_of_getField _ _ _ h1)
  · exact Prod.Lex.left _ _ (jsize_lt_of_getField _ _ _ h2)
  · exact Prod.Lex.left _ _ (jsize_lt_of_getField _ _ _ h3)

/-- The object-or-array repair for `views`/`implementationRoadmap` (core.ts
lines 564-589): a non-array object becomes the array of its entries (each
repaired by `entryFix`), an array is normalized elementwise, anything else
(including falsy and primitive values, which the source's truthiness and
typeof guards skip) is untouched. -/
def collectionFix (inj : String) (v : JValue) : JValue :=
  match v with
  | .obj es => .arr (es.attach.map (fun p => entryFix inj p.1.1 p.1.2))
  | .arr xs => .arr (xs.attach.map (fun x => normalizeBlueprintData x.1))
  | other => other
termination_by (jsize v, 0)
decreasing_by
  · apply Prod.Lex.left
    have h := jsize_lt_of_mem_fields p.1 es p.2
    rw [jsize]
    omega
  · exact Prod.Lex.left _ _ (jsize_lt_of_mem_arr x.1 xs x.2)

/-- One `Object.entries` element of a collection repair (core.ts lines
565-571, and identically lines 596-603 for `files` with `path`): an object
value missing the identifying field gets the map key injected in front of
its normalized fields (`{ name: key, ...normalizeBlueprintData(value) }`;
the spread equals prepending because the value lacks the key and
normalization preserves the key set, see `hasField_normFields`); other
values are normalized directly. -/
def entryFix (inj : String) (k : String) (v : JValue) : JValue :=
  match v with
  | .obj vfs =>
    if hasField vfs inj then normalizeBlueprintData (.obj vfs)
    else .obj ((inj, .str k) :: normFields vfs)
  | other => normalizeBlueprintData other
termination_by (jsize v, 1)
decreasing_by
  · apply Prod.Lex.right
    omega
  · apply Prod.Lex.left
    rw [jsize]
    omega
  · apply Prod.Lex.right
    omega

/-- The `initialPhase` repair (core.ts lines 591-605): a non-array object
is normalized as a whole, and its `files` field — untouched by the generic
normalization, which handles only the six known keys (see
`getField_normFields_files`) — is repaired like a collection keyed by
`path` when it is a non-array object. -/
def initialPhaseFix (v : JValue) : JValue :=
  match v with
  | .obj ipfs =>
    let nfs := normFields ipfs
    match hfl : getField ipfs "files" with
    | some (.obj fes) =>
      .obj (setField nfs "files"
        (.arr (fes.attach.map (fun p => entryFix "path" p.1.1 p.1.2))))
    | _ => .obj nfs
  | _ => v
termination_by (jsize v, 0)
decreasing_by
  · apply Prod.Lex.left
    rw [jsize]
    omega
  · apply Prod.Lex.left
    have h1 := jsize_lt_of_mem_fields p.1 fes p.2
    have h2 := jsize_lt_of_getField _ _ _ hfl
    simp only [jsize_obj] at h2 ⊢
    omega

end

/-! ## Claim C8: idempotence of the array-repair pass -/

theorem getField_cons (p : String × JValue) (fs : List (String × JValue))
    (k : String) :
    getField (p :: fs) k = if p.1 = k then some p.2 else getField fs k := by
  by_cases h : p.1 = k
  · simp [getField, List.find?_cons, h]
  · simp [getField, List.find?_cons, h]

theorem setField_cons (p : String × JValue) (fs : List (String × JValue))
    (k : String) (v : JValue) :
    setField (p :: fs) k v =
      if p.1 = k then (k, v) :: fs else p :: setField fs k v := by
  rw [setField]
  by_cases h : p.1 = k <;> simp [h]

theorem getField_setField_ne (fs : List (String × JValue)) (k k' : String)
    (v : JValue) (h : ¬ k = k') :
    getField (setField fs k v) k' = getField fs k' := by
  induction fs with
  | nil => rfl
  | cons p fs ih =>
    rw [setField_cons]
    by_cases hp : p.1 = k
    · rw [if_pos hp, getField_cons, getField_cons]
      simp [h, hp]
    · rw [if_neg hp, getField_cons, getField_cons, ih]

theorem getField_setField_self (fs : List (String × JValue)) (k : String)
    (v : JValue) (h : hasField fs k = true) :
    getField (setField fs k v) k = some v := by
  induction fs with
  | nil => simp [hasField, getField] at h
  | cons p fs ih =>
    rw [setField_cons]
    by_cases hp : p.1 = k
    · rw [if_pos hp, getField_cons]
      simp
    · rw [if_neg hp, getField_cons, if_neg hp]
      apply ih
      rw [hasField, getField_cons, if_neg hp] at h
      exact h

theorem setField_eq_of_getField (fs : List (String × JValue)) (k : String)
    (v : JValue) (h : getField fs k = some v) : setField fs k v = fs := by
  induction fs with
  | nil => rfl
  | cons p fs ih =>
    rw [setField_cons]
    by_cases hp : p.1 = k
    · rw [if_pos hp]
      rw [getField_cons, if_pos hp] at h
      obtain ⟨k0, v0⟩ := p
      simp only at hp
      simp only [Option.some_inj] at h
      rw [hp, h]
    · rw [if_neg hp]
      rw [getField_cons, if_neg hp] at h
      rw [ih h]

theorem keys_setField (fs : List (String × JValue)) (k : String)
    (v : JValue) : (setField fs k v).map (·.1) = fs.map (·.1) := by
  induction fs with
  | nil => rfl
  | cons p fs ih =>
    rw [setField_cons]
    by_cases hp : p.1 = k
    · rw [if_pos hp]
      simp [hp]
    · rw [if_neg hp]
      simp [ih]

theorem hasField_iff_keys (fs : List (String × JValue)) (k : String) :
    hasField fs k = true ↔ k ∈ fs.map (·.1) := by
  induction fs with
  | nil => simp [hasField, getField]
  | cons p fs ih =>
    rw [hasField, getField_cons]
    by_cases hp : p.1 = k
    · simp [hp]
    · rw [if_neg hp]
      simp only [List.map_cons, List.mem_cons]
      rw [← hasField]
      rw [ih]
      constructor
      · intro h; exact Or.inr h
      · intro h
        rcases h with h | h
        · exact absurd h.symm hp
        · exact h

theorem hasField_setField (fs : List (String × JValue)) (k k' : String)
    (v : JValue) : hasField (setField fs k v) k' = hasField fs k' := by
  by_cases h : hasField (setField fs k v) k' = true
  · rw [h]
    rw [hasField_iff_keys, keys_setField, ← hasField_iff_keys] at h
    exact h.symm
  · have h2 : ¬ hasField fs k' = true := by
      intro hc
      rw [hasField_iff_keys, ← keys_setField fs k v, ← hasField_iff_keys] at hc
      exact h hc
    simp only [Bool.not_eq_true] at h h2
    rw [h, h2]

theorem setField_comm (fs : List (String × JValue)) (k k' : String)
    (v w : JValue) (h : ¬ k = k') :
    setField (setField fs k v) k' w = setField (setField fs k' w) k v := by
  induction fs with
  | nil => rfl
  | cons p fs ih =>
    by_cases hp : p.1 = k
    · have hp' : ¬ p.1 = k' := by rw [hp]; exact h
      simp [setField_cons, hp, hp', h]
    · by_cases hp' : p.1 = k'
      · have hk : ¬ k' = k := fun hc => h hc.symm
        simp [setField_cons, hp, hp', hk]
      · simp [setField_cons, hp, hp', ih]

theorem normalize_arr (xs : List JValue) :
    normalizeBlueprintData (.arr xs) = .arr (xs.map normalizeBlueprintData) := by
  rw [normalizeBlueprintData, List.attach_map_coe]

theorem normalize_obj (fs : List (String × JValue)) :
    normalizeBlueprintData (.obj fs) = .obj (normFields fs) := by
  rw [normalizeBlueprintData]

theorem collectionFix_obj (inj : String) (es : List (String × JValue)) :
    collectionFix inj (.obj es) =
      .arr (es.map (fun p => entryFix inj p.1 p.2)) := by
  rw [collectionFix]
  congr 1
  exact List.attach_map_coe es (fun p => entryFix inj p.1 p.2)

theorem collectionFix_arr (inj : String) (xs : List JValue) :
    collectionFix inj (.arr xs) = .arr (xs.map normalizeBlueprintData) := by
  rw [collectionFix]
  congr 1
  exact List.attach_map_coe xs normalizeBlueprintData

theorem entryFix_obj (inj k : String) (vfs : List (String × JValue)) :
    entryFix inj k (.obj vfs) =
      if hasField vfs inj then normalizeBlueprintData (.obj vfs)
      else .obj ((inj, .str k) :: normFields vfs) := by
  rw [entryFix]

theorem getField_setFieldOpt_ne (fs : List (String × JValue)) (k k' : String)
    (u : Option JValue) (h : ¬ k = k') :
    getField (setFieldOpt fs k u) k' = getField fs k' := by
  cases u with
  | none => rfl
  | some v => exact getField_setField_ne fs k k' v h

theorem keys_setFieldOpt (fs : List (String × JValue)) (k : String)
    (u : Option JValue) : (setFieldOpt fs k u).map (·.1) = fs.map (·.1) := by
  cases u with
  | none => rfl
  | some v => exact keys_setField fs k v

theorem setFieldOpt_cons_ne (p : String × JValue) (fs : List (String × JValue))
    (k : String) (u : Option JValue) (h : ¬ p.1 = k) :
    setFieldOpt (p :: fs) k u = p :: setFieldOpt fs k u := by
  cases u with
  | none => rfl
  | some v =>
    show setField (p :: fs) k v = p :: setField fs k v
    rw [setField_cons, if_neg h]

theorem setFieldOpt_setField_comm (fs : List (String × JValue))
    (k k' : String) (u : Option JValue) (w : JValue) (h : ¬ k = k') :
    setFieldOpt (setField fs k' w) k u =
      setField (setFieldOpt fs k u) k' w := by
  cases u with
  | none => rfl
  | some v =>
    show setField (setField fs k' w) k v = setField (setField fs k v) k' w
    exact (setField_comm fs k k' v w h).symm

theorem normFields_eq (fs : List (String × JValue)) :
    normFields fs =
      setFieldOpt (setFieldOpt (setFieldOpt (setFieldOpt (setFieldOpt
        (setFieldOpt fs "views"
          ((getField fs "views").map (collectionFix "name")))
        "implementationRoadmap"
          ((getField fs "implementationRoadmap").map (collectionFix "phase")))
        "initialPhase" ((getField fs "initialPhase").map initialPhaseFix))
        "pitfalls" ((getField fs "pitfalls").map stringArrFix))
        "frameworks" ((getField fs "frameworks").map stringArrFix))
        "colorPalette" ((getField fs "colorPalette").map stringArrFix) := by
  rw [normFields]
  cases getField fs "views" <;> cases getField fs "implementationRoadmap" <;>
    cases getField fs "initialPhase" <;> cases getField fs "pitfalls" <;>
      cases getField fs "frameworks" <;> cases getField fs "colorPalette" <;>
        rfl

theorem initialPhaseFix_obj_files (ipfs fes : List (String × JValue))
    (h : getField ipfs "files" = some (.obj fes)) :
    initialPhaseFix (.obj ipfs) =
      .obj (setField (normFields ipfs) "files"
        (.arr (fes.map (fun p => entryFix "path" p.1 p.2)))) := by
  rw [initialPhaseFix]
  split
  · next fes2 heq =>
    rw [h] at heq
    injection heq with heq1
    injection heq1 with heq2
    subst heq2
    rw [List.attach_map_coe fes (fun p => entryFix "path" p.1 p.2)]
  · next hx => exact (hx fes h).elim

theorem initialPhaseFix_obj_none (ipfs : List (String × JValue))
    (h : getField ipfs "files" = none) :
    initialPhaseFix (.obj ipfs) = .obj (normFields ipfs) := by
  rw [initialPhaseFix]
  split
  · next fes2 heq => rw [h] at heq; cases heq
  · rfl

theorem initialPhaseFix_obj_nonobj (ipfs : List (String × JValue))
    (v : JValue) (h : getField ipfs "files" = some v)
    (hv : ∀ fes, ¬ v = .obj fes) :
    initialPhaseFix (.obj ipfs) = .obj (normFields ipfs) := by
  rw [initialPhaseFix]
  split
  · next fes2 heq =>
    rw [h] at heq
    injection heq with heq1
    exact (hv fes2 heq1).elim
  · rfl

theorem normalize_null : normalizeBlueprintData .null = .null := by
  rw [normalizeBlueprintData]
  · intro _ h; cases h
  · intro _ h; cases h

theorem normalize_bool (b : Bool) :
    normalizeBlueprintData (.bool b) = .bool b := by
  rw [normalizeBlueprintData]
  · intro _ h; cases h
  · intro _ h; cases h

theorem normalize_num (q : ℚ) : normalizeBlueprintData (.num q) = .num q := by
  rw [normalizeBlueprintData]
  · intro _ h; cases h
  · intro _ h; cases h

theorem normalize_str (s : String) :
    normalizeBlueprintData (.str s) = .str s := by
  rw [normalizeBlueprintData]
  · intro _ h; cases h
  · intro _ h; cases h

theorem entryFix_nonobj (inj k : String) (v : JValue)
    (hv : ∀ vfs, ¬ v = JValue.obj vfs) :
    entryFix inj k v = normalizeBlueprintData v := by
  rw [entryFix]
  · intro dfs h; exact hv dfs h

theorem collectionFix_nonmatch (inj : String) (v : JValue)
    (ho : ∀ es, ¬ v = JValue.obj es) (ha : ∀ xs, ¬ v = JValue.arr xs) :
    collectionFix inj v = v := by
  rw [collectionFix]
  · intro es h; exact ho es h
  · intro xs h; exact ha xs h

theorem initialPhaseFix_nonobj (v : JValue)
    (hv : ∀ vfs, ¬ v = JValue.obj vfs) : initialPhaseFix v = v := by
  rw [initialPhaseFix]
  · intro dfs h; exact hv dfs h

/-- The repair applied to the value of each known key by `normFields` (the
identity for every other key). -/
def keyFixValue (k : String) : JValue → JValue :=
  if k = "views" then collectionFix "name"
  else if k = "implementationRoadmap" then collectionFix "phase"
  else if k = "initialPhase" then initialPhaseFix
  else if k = "pitfalls" then stringArrFix
  else if k = "frameworks" then stringArrFix
  else if k = "colorPalette" then stringArrFix
  else id

theorem getField_setFieldOpt_map (l fs : List (String × JValue)) (k : String)
    (f : JValue → JValue) (hl : getField l k = getField fs k) :
    getField (setFieldOpt l k ((getField fs k).map f)) k =
      (getField fs k).map f := by
  cases h : getField fs k with
  | none =>
    show getField l k = none
    rw [hl, h]
  | some v =>
    show getField (setField l k (f v)) k = some (f v)
    apply getField_setField_self
    rw [hasField, hl, h]
    rfl

theorem keyFixValue_views : keyFixValue "views" = collectionFix "name" := by
  rw [keyFixValue, if_pos rfl]

theorem keyFixValue_roadmap :
    keyFixValue "implementationRoadmap" = collectionFix "phase" := by
  rw [keyFixValue, if_neg (by decide), if_pos rfl]

theorem keyFixValue_initialPhase :
    keyFixValue "initialPhase" = initialPhaseFix := by
  rw [keyFixValue, if_neg (by decide), if_neg (by decide), if_pos rfl]

theorem keyFixValue_pitfalls : keyFixValue "pitfalls" = stringArrFix := by
  rw [keyFixValue, if_neg (by decide), if_neg (by decide), if_neg (by decide),
    if_pos rfl]

theorem keyFixValue_frameworks : keyFixValue "frameworks" = stringArrFix := by
  rw [keyFixValue, if_neg (by decide), if_neg (by decide), if_neg (by decide),
    if_neg (by decide), if_pos rfl]

theorem keyFixValue_colorPalette :
    keyFixValue "colorPalette" = stringArrFix := by
  rw [keyFixValue, if_neg (by decide), if_neg (by decide), if_neg (by decide),
    if_neg (by decide), if_neg (by decide), if_pos rfl]

theorem keyFixValue_unknown (k : String) (h1 : ¬ k = "views")
    (h2 : ¬ k = "implementationRoadmap") (h3 : ¬ k = "initialPhase")
    (h4 : ¬ k = "pitfalls") (h5 : ¬ k = "frameworks")
    (h6 : ¬ k = "colorPalette") : keyFixValue k = id := by
  rw [keyFixValue, if_neg h1, if_neg h2, if_neg h3, if_neg h4, if_neg h5,
    if_neg h6]

theorem getField_normFields (fs : List (String × JValue)) (k : String) :
    getField (normFields fs) k = (getField fs k).map (keyFixValue k) := by
  rw [normFields_eq]
  by_cases h1 : k = "views"
  · subst h1
    rw [getField_setFieldOpt_ne _ "colorPalette" "views" _ (by decide),
      getField_setFieldOpt_ne _ "frameworks" "views" _ (by decide),
      getField_setFieldOpt_ne _ "pitfalls" "views" _ (by decide),
      getField_setFieldOpt_ne _ "initialPhase" "views" _ (by decide),
      getField_setFieldOpt_ne _ "implementationRoadmap" "views" _ (by decide),
      getField_setFieldOpt_map fs fs "views" _ rfl, keyFixValue_views]
  by_cases h2 : k = "implementationRoadmap"
  · subst h2
    rw [getField_setFieldOpt_ne _ "colorPalette" _ _ (by decide),
      getField_setFieldOpt_ne _ "frameworks" _ _ (by decide),
      getField_setFieldOpt_ne _ "pitfalls" _ _ (by decide),
      getField_setFieldOpt_ne _ "initialPhase" _ _ (by decide),
      getField_setFieldOpt_map _ fs "implementationRoadmap" _
        (getField_setFieldOpt_ne _ "views" _ _ (by decide)),
      keyFixValue_roadmap]
  by_cases h3 : k = "initialPhase"
  · subst h3
    rw [getField_setFieldOpt_ne _ "colorPalette" _ _ (by decide),
      getField_setFieldOpt_ne _ "frameworks" _ _ (by decide),
      getField_setFieldOpt_ne _ "pitfalls" _ _ (by decide),
      getField_setFieldOpt_map _ fs "initialPhase" _ (by
        rw [getField_setFieldOpt_ne _ "implementationRoadmap" _ _ (by decide),
          getField_setFieldOpt_ne _ "views" _ _ (by decide)]),
      keyFixValue_initialPhase]
  by_cases h4 : k = "pitfalls"
  · subst h4
    rw [getField_setFieldOpt_ne _ "colorPalette" _ _ (by decide),
      getField_setFieldOpt_ne _ "frameworks" _ _ (by decide),
      getField_setFieldOpt_map _ fs "pitfalls" _ (by
        rw [getField_setFieldOpt_ne _ "initialPhase" _ _ (by decide),
          getField_setFieldOpt_ne _ "implementationRoadmap" _ _ (by decide),
          getField_setFieldOpt_ne _ "views" _ _ (by decide)]),
      keyFixValue_pitfalls]
  by_cases h5 : k = "frameworks"
  · subst h5
    rw [getField_setFieldOpt_ne _ "colorPalette" _ _ (by decide),
      getField_setFieldOpt_map _ fs "frameworks" _ (by
        rw [getField_setFieldOpt_ne _ "pitfalls" _ _ (by decide),
          getField_setFieldOpt_ne _ "initialPhase" _ _ (by decide),
          getField_setFieldOpt_ne _ "implementationRoadmap" _ _ (by decide),
          getField_setFieldOpt_ne _ "views" _ _ (by decide)]),
      keyFixValue_frameworks]
  by_cases h6 : k = "colorPalette"
  · subst h6
    rw [getField_setFieldOpt_map _ fs "colorPalette" _ (by
        rw [getField_setFieldOpt_ne _ "frameworks" _ _ (by decide),
          getField_setFieldOpt_ne _ "pitfalls" _ _ (by decide),
          getField_setFieldOpt_ne _ "initialPhase" _ _ (by decide),
          getField_setFieldOpt_ne _ "implementationRoadmap" _ _ (by decide),
          getField_setFieldOpt_ne _ "views" _ _ (by decide)]),
      keyFixValue_colorPalette]
  · rw [getField_setFieldOpt_ne _ "colorPalette" k _ (fun hc => h6 hc.symm),
      getField_setFieldOpt_ne _ "frameworks" k _ (fun hc => h5 hc.symm),
      getField_setFieldOpt_ne _ "pitfalls" k _ (fun hc => h4 hc.symm),
      getField_setFieldOpt_ne _ "initialPhase" k _ (fun hc => h3 hc.symm),
      getField_setFieldOpt_ne _ "implementationRoadmap" k _
        (fun hc => h2 hc.symm),
      getField_setFieldOpt_ne _ "views" k _ (fun hc => h1 hc.symm),
      keyFixValue_unknown k h1 h2 h3 h4 h5 h6]
    cases getField fs k <;> rfl

theorem keys_normFields (fs : List (String × JValue)) :
    (normFields fs).map (·.1) = fs.map (·.1) := by
  rw [normFields_eq, keys_setFieldOpt, keys_setFieldOpt, keys_setFieldOpt,
    keys_setFieldOpt, keys_setFieldOpt, keys_setFieldOpt]

theorem hasField_normFields (fs : List (String × JValue)) (k : String) :
    hasField (normFields fs) k = hasField fs k := by
  rw [hasField, hasField, getField_normFields]
  cases getField fs k <;> rfl

theorem getField_normFields_files (fs : List (String × JValue)) :
    getField (normFields fs) "files" = getField fs "files" := by
  rw [getField_normFields,
    keyFixValue_unknown "files" (by decide) (by decide) (by decide)
      (by decide) (by decide) (by decide)]
  cases getField fs "files" <;> rfl

theorem normFields_cons_unknown (k0 : String) (v0 : JValue)
    (fs : List (String × JValue)) (h1 : ¬ k0 = "views")
    (h2 : ¬ k0 = "implementationRoadmap") (h3 : ¬ k0 = "initialPhase")
    (h4 : ¬ k0 = "pitfalls") (h5 : ¬ k0 = "frameworks")
    (h6 : ¬ k0 = "colorPalette") :
    normFields ((k0, v0) :: fs) = (k0, v0) :: normFields fs := by
  rw [normFields_eq, normFields_eq]
  rw [getField_cons (k0, v0) fs "views",
    getField_cons (k0, v0) fs "implementationRoadmap",
    getField_cons (k0, v0) fs "initialPhase",
    getField_cons (k0, v0) fs "pitfalls",
    getField_cons (k0, v0) fs "frameworks",
    getField_cons (k0, v0) fs "colorPalette"]
  rw [if_neg h1, if_neg h2, if_neg h3, if_neg h4, if_neg h5, if_neg h6]
  rw [setFieldOpt_cons_ne (k0, v0) _ "views" _ h1,
    setFieldOpt_cons_ne (k0, v0) _ "implementationRoadmap" _ h2,
    setFieldOpt_cons_ne (k0, v0) _ "initialPhase" _ h3,
    setFieldOpt_cons_ne (k0, v0) _ "pitfalls" _ h4,
    setFieldOpt_cons_ne (k0, v0) _ "frameworks" _ h5,
    setFieldOpt_cons_ne (k0, v0) _ "colorPalette" _ h6]

theorem normFields_setField_comm (fs : List (String × JValue)) (k0 : String)
    (x : JValue) (h1 : ¬ k0 = "views") (h2 : ¬ k0 = "implementationRoadmap")
    (h3 : ¬ k0 = "initialPhase") (h4 : ¬ k0 = "pitfalls")
    (h5 : ¬ k0 = "frameworks") (h6 : ¬ k0 = "colorPalette") :
    normFields (setField fs k0 x) = setField (normFields fs) k0 x := by
  rw [normFields_eq, normFields_eq]
  rw [getField_setField_ne fs k0 "views" x h1,
    getField_setField_ne fs k0 "implementationRoadmap" x h2,
    getField_setField_ne fs k0 "initialPhase" x h3,
    getField_setField_ne fs k0 "pitfalls" x h4,
    getField_setField_ne fs k0 "frameworks" x h5,
    getField_setField_ne fs k0 "colorPalette" x h6]
  rw [setFieldOpt_setField_comm _ "views" k0 _ x (fun hc => h1 hc.symm),
    setFieldOpt_setField_comm _ "implementationRoadmap" k0 _ x
      (fun hc => h2 hc.symm),
    setFieldOpt_setField_comm _ "initialPhase" k0 _ x (fun hc => h3 hc.symm),
    setFieldOpt_setField_comm _ "pitfalls" k0 _ x (fun hc => h4 hc.symm),
    setFieldOpt_setField_comm _ "frameworks" k0 _ x (fun hc => h5 hc.symm),
    setFieldOpt_setField_comm _ "colorPalette" k0 _ x (fun hc => h6 hc.symm)]

theorem stringArrFix_idem (v : JValue) :
    stringArrFix (stringArrFix v) = stringArrFix v := by
  cases v with
  | obj es =>
    rw [stringArrFix]
    show stringArrFix (.arr _) = _
    rw [stringArrFix]
    congr 1
    apply List.filter_eq_self.mpr
    intro x hx
    rcases List.mem_filterMap.mp hx with ⟨p, _, hp⟩
    cases hv : p.2 with
    | str s => rw [hv] at hp; simp only [Option.some_inj] at hp; rw [← hp]
    | null => rw [hv] at hp; cases hp
    | bool b => rw [hv] at hp; cases hp
    | num q => rw [hv] at hp; cases hp
    | arr xs => rw [hv] at hp; cases hp
    | obj gs => rw [hv] at hp; cases hp
  | arr xs =>
    rw [stringArrFix]
    show stringArrFix (.arr _) = _
    rw [stringArrFix]
    congr 1
    apply List.filter_eq_self.mpr
    intro x hx
    exact (List.mem_filter.mp hx).2
  | null => rfl
  | bool b => rfl
  | num q => rfl
  | str s => rfl

theorem setFieldOpt_self_fix (l : List (String × JValue)) (key : String)
    (f : JValue → JValue) (hfix : ∀ v, getField l key = some v → f v = v) :
    setFieldOpt l key ((getField l key).map f) = l := by
  cases h : getField l key with
  | none => rfl
  | some v =>
    show setField l key (f v) = l
    rw [hfix v h]
    exact setField_eq_of_getField l key v h

theorem collectionFix_idem_of (inj : String) (v : JValue)
    (hcons : ∀ (s : String) (gs : List (String × JValue)),
      normFields ((inj, JValue.str s) :: gs) =
        (inj, JValue.str s) :: normFields gs)
    (hN : ∀ w, jsize w < jsize v →
      normalizeBlueprintData (normalizeBlueprintData w) =
        normalizeBlueprintData w)
    (hNF : ∀ gs, jsizeFields gs < jsize v →
      normFields (normFields gs) = normFields gs) :
    collectionFix inj (collectionFix inj v) = collectionFix inj v := by
  cases v with
  | obj es =>
    rw [collectionFix_obj, collectionFix_arr]
    congr 1
    rw [List.map_map]
    apply List.map_congr_left
    intro p hp
    have hsz : jsize p.2 < jsize (JValue.obj es) := by
      have := jsize_lt_of_mem_fields p es hp
      rw [jsize_obj]
      omega
    show normalizeBlueprintData (entryFix inj p.1 p.2) = entryFix inj p.1 p.2
    cases hv2 : p.2 with
    | obj vfs =>
      rw [hv2] at hsz
      rw [entryFix_obj]
      by_cases hh : hasField vfs inj
      · rw [if_pos hh]
        exact hN _ hsz
      · rw [if_neg hh, normalize_obj, hcons p.1 (normFields vfs)]
        have hszf : jsizeFields vfs < jsize (JValue.obj es) := by
          have h1 : jsizeFields vfs < jsize (JValue.obj vfs) := by
            rw [jsize_obj]
            omega
          exact lt_trans h1 hsz
        rw [hNF vfs hszf]
    | null =>
      rw [hv2] at hsz
      rw [entryFix_nonobj _ _ _ (fun _ h => by cases h)]
      exact hN _ hsz
    | bool b =>
      rw [hv2] at hsz
      rw [entryFix_nonobj _ _ _ (fun _ h => by cases h)]
      exact hN _ hsz
    | num q =>
      rw [hv2] at hsz
      rw [entryFix_nonobj _ _ _ (fun _ h => by cases h)]
      exact hN _ hsz
    | str s =>
      rw [hv2] at hsz
      rw [entryFix_nonobj _ _ _ (fun _ h => by cases h)]
      exact hN _ hsz
    | arr xs =>
      rw [hv2] at hsz
      rw [entryFix_nonobj _ _ _ (fun _ h => by cases h)]
      exact hN _ hsz
  | arr xs =>
    rw [collectionFix_arr, collectionFix_arr]
    congr 1
    rw [List.map_map]
    apply List.map_congr_left
    intro x hx
    show normalizeBlueprintData (normalizeBlueprintData x) =
      normalizeBlueprintData x
    exact hN x (jsize_lt_of_mem_arr x xs hx)
  | null =>
    have h := collectionFix_nonmatch inj JValue.null
      (fun _ hh => by cases hh) (fun _ hh => by cases hh)
    rw [h, h]
  | bool b =>
    have h := collectionFix_nonmatch inj (JValue.bool b)
      (fun _ hh => by cases hh) (fun _ hh => by cases hh)
    rw [h, h]
  | num q =>
    have h := collectionFix_nonmatch inj (JValue.num q)
      (fun _ hh => by cases hh) (fun _ hh => by cases hh)
    rw [h, h]
  | str s =>
    have h := collectionFix_nonmatch inj (JValue.str s)
      (fun _ hh => by cases hh) (fun _ hh => by cases hh)
    rw [h, h]

theorem initialPhaseFix_idem_of (v : JValue)
    (hNF : ∀ gs, jsizeFields gs < jsize v →
      normFields (normFields gs) = normFields gs) :
    initialPhaseFix (initialPhaseFix v) = initialPhaseFix v := by
  cases v with
  | obj ipfs =>
    have hszf : jsizeFields ipfs < jsize (JValue.obj ipfs) := by
      rw [jsize_obj]
      omega
    cases hfl : getField ipfs "files" with
    | none =>
      rw [initialPhaseFix_obj_none ipfs hfl,
        initialPhaseFix_obj_none (normFields ipfs)
          (by rw [getField_normFields_files, hfl]),
        hNF ipfs hszf]
    | some w0 =>
      cases w0 with
      | obj fes =>
        rw [initialPhaseFix_obj_files ipfs fes hfl]
        have hget : getField (setField (normFields ipfs) "files"
            (JValue.arr (fes.map (fun p => entryFix "path" p.1 p.2))))
              "files" =
            some (JValue.arr (fes.map (fun p => entryFix "path" p.1 p.2))) := by
          apply getField_setField_self
          rw [hasField_normFields, hasField, hfl]
          rfl
        rw [initialPhaseFix_obj_nonobj _ _ hget (fun _ h => by cases h),
          normFields_setField_comm _ "files" _ (by decide) (by decide)
            (by decide) (by decide) (by decide) (by decide),
          hNF ipfs hszf]
      | null =>
        rw [initialPhaseFix_obj_nonobj ipfs _ hfl (fun _ h => by cases h),
          initialPhaseFix_obj_nonobj (normFields ipfs) _
            (by rw [getField_normFields_files, hfl])
            (fun _ h => by cases h),
          hNF ipfs hszf]
      | bool b =>
        rw [initialPhaseFix_obj_nonobj ipfs _ hfl (fun _ h => by cases h),
          initialPhaseFix_obj_nonobj (normFields ipfs) _
            (by rw [getField_normFields_files, hfl])
            (fun _ h => by cases h),
          hNF ipfs hszf]
      | num q =>
        rw [initialPhaseFix_obj_nonobj ipfs _ hfl (fun _ h => by cases h),
          initialPhaseFix_obj_nonobj (normFields ipfs) _
            (by rw [getField_normFields_files, hfl])
            (fun _ h => by cases h),
          hNF ipfs hszf]
      | str s =>
        rw [initialPhaseFix_obj_nonobj ipfs _ hfl (fun _ h => by cases h),
          initialPhaseFix_obj_nonobj (normFields ipfs) _
            (by rw [getField_normFields_files, hfl])
            (fun _ h => by cases h),
          hNF ipfs hszf]
      | arr xs =>
        rw [initialPhaseFix_obj_nonobj ipfs _ hfl (fun _ h => by cases h),
          initialPhaseFix_obj_nonobj (normFields ipfs) _
            (by rw [getField_normFields_files, hfl])
            (fun _ h => by cases h),
          hNF ipfs hszf]
  | null =>
    have h := initialPhaseFix_nonobj JValue.null (fun _ hh => by cases hh)
    rw [h, h]
  | bool b =>
    have h := initialPhaseFix_nonobj (JValue.bool b) (fun _ hh => by cases hh)
    rw [h, h]
  | num q =>
    have h := initialPhaseFix_nonobj (JValue.num q) (fun _ hh => by cases hh)
    rw [h, h]
  | str s =>
    have h := initialPhaseFix_nonobj (JValue.str s) (fun _ hh => by cases hh)
    rw [h, h]
  | arr xs =>
    have h := initialPhaseFix_nonobj (JValue.arr xs) (fun _ hh => by cases hh)
    rw [h, h]

theorem normFields_idem_of (fs : List (String × JValue))
    (hfix : ∀ k v, getField fs k = some v →
      keyFixValue k (keyFixValue k v) = keyFixValue k v) :
    normFields (normFields fs) = normFields fs := by
  have hstep : ∀ (key : String) (f : JValue → JValue), keyFixValue key = f →
      (∀ v, getField fs key = some v → f (f v) = f v) →
      ∀ v, getField (normFields fs) key = some v → f v = v := by
    intro key f hkf hidem v' h
    rw [getField_normFields, hkf] at h
    cases hg : getField fs key with
    | none => rw [hg] at h; cases h
    | some v =>
      rw [hg] at h
      have h' : f v = v' := by simpa using h
      rw [← h']
      exact hidem v hg
  have hv1 := hstep "views" (collectionFix "name") keyFixValue_views
    (fun v hg => by
      have h := hfix "views" v hg
      rwa [keyFixValue_views] at h)
  have hv2 := hstep "implementationRoadmap" (collectionFix "phase")
    keyFixValue_roadmap
    (fun v hg => by
      have h := hfix "implementationRoadmap" v hg
      rwa [keyFixValue_roadmap] at h)
  have hv3 := hstep "initialPhase" initialPhaseFix keyFixValue_initialPhase
    (fun v hg => by
      have h := hfix "initialPhase" v hg
      rwa [keyFixValue_initialPhase] at h)
  have hv4 := hstep "pitfalls" stringArrFix keyFixValue_pitfalls
    (fun v hg => by
      have h := hfix "pitfalls" v hg
      rwa [keyFixValue_pitfalls] at h)
  have hv5 := hstep "frameworks" stringArrFix keyFixValue_frameworks
    (fun v hg => by
      have h := hfix "frameworks" v hg
      rwa [keyFixValue_frameworks] at h)
  have hv6 := hstep "colorPalette" stringArrFix keyFixValue_colorPalette
    (fun v hg => by
      have h := hfix "colorPalette" v hg
      rwa [keyFixValue_colorPalette] at h)
  conv_lhs => rw [normFields_eq]
  rw [setFieldOpt_self_fix (normFields fs) "views" (collectionFix "name") hv1,
    setFieldOpt_self_fix (normFields fs) "implementationRoadmap"
      (collectionFix "phase") hv2,
    setFieldOpt_self_fix (normFields fs) "initialPhase" initialPhaseFix hv3,
    setFieldOpt_self_fix (normFields fs) "pitfalls" stringArrFix hv4,
    setFieldOpt_self_fix (normFields fs) "frameworks" stringArrFix hv5,
    setFieldOpt_self_fix (normFields fs) "colorPalette" stringArrFix hv6]

theorem norm_idem_all (n : Nat) :
    (∀ v, jsize v ≤ n →
      normalizeBlueprintData (normalizeBlueprintData v) =
        normalizeBlueprintData v) ∧
    (∀ fs, jsizeFields fs ≤ n →
      normFields (normFields fs) = normFields fs) := by
  induction n using Nat.strong_induction_on with
  | _ n ih =>
  constructor
  · intro v hv
    cases v with
    | null => rw [normalize_null, normalize_null]
    | bool b => rw [normalize_bool, normalize_bool]
    | num q => rw [normalize_num, normalize_num]
    | str s => rw [normalize_str, normalize_str]
    | arr xs =>
      rw [normalize_arr, normalize_arr]
      congr 1
      rw [List.map_map]
      apply List.map_congr_left
      intro x hx
      show normalizeBlueprintData (normalizeBlueprintData x) =
        normalizeBlueprintData x
      have hlt : jsize x < n :=
        lt_of_lt_of_le (jsize_lt_of_mem_arr x xs hx) hv
      exact (ih (jsize x) hlt).1 x le_rfl
    | obj fs =>
      rw [normalize_obj, normalize_obj]
      congr 1
      have hlt : jsizeFields fs < n := by
        rw [jsize_obj] at hv
        omega
      exact (ih (jsizeFields fs) hlt).2 fs le_rfl
  · intro fs hfs
    apply normFields_idem_of
    intro k v hg
    have hvn : jsize v < n :=
      lt_of_lt_of_le (jsize_lt_of_getField fs k v hg) hfs
    have hN : ∀ w, jsize w < jsize v →
        normalizeBlueprintData (normalizeBlueprintData w) =
          normalizeBlueprintData w :=
      fun w hw => (ih (jsize w) (lt_trans hw hvn)).1 w le_rfl
    have hNF : ∀ gs, jsizeFields gs < jsize v →
        normFields (normFields gs) = normFields gs :=
      fun gs hgs => (ih (jsizeFields gs) (lt_trans hgs hvn)).2 gs le_rfl
    by_cases h1 : k = "views"
    · subst h1
      rw [keyFixValue_views]
      exact collectionFix_idem_of "name" v
        (fun s gs => normFields_cons_unknown "name" (JValue.str s) gs
          (by decide) (by decide) (by decide) (by decide) (by decide)
          (by decide))
        hN hNF
    by_cases h2 : k = "implementationRoadmap"
    · subst h2
      rw [keyFixValue_roadmap]
      exact collectionFix_idem_of "phase" v
        (fun s gs => normFields_cons_unknown "phase" (JValue.str s) gs
          (by decide) (by decide) (by decide) (by decide) (by decide)
          (by decide))
        hN hNF
    by_cases h3 : k = "initialPhase"
    · subst h3
      rw [keyFixValue_initialPhase]
      exact initialPhaseFix_idem_of v hNF
    by_cases h4 : k = "pitfalls"
    · subst h4
      rw [keyFixValue_pitfalls]
      exact stringArrFix_idem v
    by_cases h5 : k = "frameworks"
    · subst h5
      rw [keyFixValue_frameworks]
      exact stringArrFix_idem v
    by_cases h6 : k = "colorPalette"
    · subst h6
      rw [keyFixValue_colorPalette]
      exact stringArrFix_idem v
    · rw [keyFixValue_unknown k h1 h2 h3 h4 h5 h6]
      rfl

/-- Claim C8: the structured-output array repair `normalizeBlueprintData`
(core.ts lines 551-632) is idempotent: running the repair a second time
over any JSON value (and hence over any already-repaired blueprint object)
leaves it unchanged. -/
theorem normalizeBlueprintData_idem (v : JValue) :
    normalizeBlueprintData (normalizeBlueprintData v) =
      normalizeBlueprintData v :=
  (norm_idem_all (jsize v)).1 v le_rfl

/-! ## Claim C2: assembly order and completeness of the streamed tool
calls -/

theorem foldl_inv {σ α : Type} (P : σ → Prop) (Q : α → Prop)
    (f : σ → α → σ) (l : List α) (hQ : ∀ a ∈ l, Q a)
    (step : ∀ s a, Q a → P s → P (f s a)) (s0 : σ) (h0 : P s0) :
    P (l.foldl f s0) := by
  induction l generalizing s0 with
  | nil => exact h0
  | cons a l ih =>
    exact ih (fun b hb => hQ b (List.mem_cons_of_mem a hb)) (f s0 a)
      (step s0 a (hQ a (List.mem_cons_self a l)) h0)

theorem mapGet_mem {κ : Type} [DecidableEq κ] (m : List (κ × Nat)) (k : κ)
    (r : Nat) (h : mapGet m k = some r) : (k, r) ∈ m := by
  rw [mapGet] at h
  cases hf : m.find? (fun p => decide (p.1 = k)) with
  | none => rw [hf] at h; cases h
  | some p =>
    rw [hf] at h
    have hp : p.1 = k := by
      have := List.find?_some hf
      simpa using this
    have hr : p.2 = r := by simpa using h
    have hm := List.mem_of_find?_eq_some hf
    rw [← hp, ← hr]
    exact hm

theorem mapGet_none_not_mem {κ : Type} [DecidableEq κ] (m : List (κ × Nat))
    (k : κ) (h : mapGet m k = none) : ∀ p ∈ m, ¬ p.1 = k := by
  intro p hp hk
  rw [mapGet] at h
  cases hf : m.find? (fun p => decide (p.1 = k)) with
  | some q => rw [hf] at h; cases h
  | none =>
    have := List.find?_eq_none.mp hf p hp
    simp [hk] at this

theorem find?_isSome_of_mem {κ : Type} [DecidableEq κ]
    (m : List (κ × Nat)) (k : κ) (p : κ × Nat) (hp : p ∈ m) (hk : p.1 = k) :
    (m.find? (fun q => decide (q.1 = k))).isSome := by
  rw [List.find?_isSome]
  exact ⟨p, hp, by simp [hk]⟩

theorem mapSet_of_absent {κ : Type} [DecidableEq κ] (m : List (κ × Nat))
    (k : κ) (v : Nat) (h : ∀ p ∈ m, ¬ p.1 = k) :
    mapSet m k v = m ++ [(k, v)] := by
  rw [mapSet, if_neg]
  intro hs
  rw [List.find?_isSome] at hs
  obtain ⟨p, hp, hpk⟩ := hs
  exact h p hp (by simpa using hpk)

theorem mapSet_mem {κ : Type} [DecidableEq κ] (m : List (κ × Nat)) (k : κ)
    (v : Nat) (q : κ × Nat) (hq : q ∈ mapSet m k v) :
    q = (k, v) ∨ q ∈ m := by
  rw [mapSet] at hq
  by_cases hs : (m.find? (fun p => decide (p.1 = k))).isSome
  · rw [if_pos hs] at hq
    rcases List.mem_map.mp hq with ⟨p, hp, hpe⟩
    by_cases hpk : p.1 = k
    · rw [if_pos hpk] at hpe
      exact Or.inl hpe.symm
    · rw [if_neg hpk] at hpe
      exact Or.inr (hpe ▸ hp)
  · rw [if_neg hs] at hq
    rcases List.mem_append.mp hq with h | h
    · exact Or.inr h
    · simp only [List.mem_singleton] at h
      exact Or.inl h

theorem mapSet_keys_nodup {κ : Type} [DecidableEq κ] (m : List (κ × Nat))
    (k : κ) (v : Nat) (h : (m.map (·.1)).Nodup) :
    ((mapSet m k v).map (·.1)).Nodup := by
  rw [mapSet]
  by_cases hs : (m.find? (fun p => decide (p.1 = k))).isSome
  · rw [if_pos hs]
    have : (m.map (fun p => if p.1 = k then (k, v) else p)).map (·.1) =
        m.map (·.1) := by
      rw [List.map_map]
      apply List.map_congr_left
      intro p _
      by_cases hpk : p.1 = k
      · simp [hpk]
      · simp [hpk]
    rw [this]
    exact h
  · rw [if_neg hs]
    rw [List.map_append]
    apply List.Nodup.append h (by simp)
    intro a ha hb
    simp only [List.map_cons, List.map_nil, List.mem_singleton] at hb
    rcases List.mem_map.mp ha with ⟨p, hp, hpk⟩
    apply hs
    exact find?_isSome_of_mem m k p hp (hpk.trans hb)

theorem filterMap_get?_range (l : List ToolAccumulatorEntry) :
    (List.range l.length).filterMap l.get? = l := by
  induction l with
  | nil => rfl
  | cons x xs ih =>
    have hr : List.range (xs.length + 1) =
        0 :: (List.range xs.length).map (· + 1) :=
      List.range_succ_eq_map xs.length
    show (List.range (xs.length + 1)).filterMap (x :: xs).get? = x :: xs
    rw [hr, List.filterMap_cons]
    have h0 : (x :: xs).get? 0 = some x := rfl
    rw [h0, List.filterMap_map]
    have hcomp : ((x :: xs).get? ∘ (· + 1)) = xs.get? := by
      funext i
      rfl
    rw [hcomp, ih]

theorem insertByKey_perm (key : ToolAccumulatorEntry → Nat)
    (e : ToolAccumulatorEntry) (l : List ToolAccumulatorEntry) :
    (insertByKey key e l).Perm (e :: l) := by
  induction l with
  | nil => exact List.Perm.refl _
  | cons x xs ih =>
    rw [insertByKey]
    by_cases h : key e ≤ key x
    · rw [if_pos h]
    · rw [if_neg h]
      exact (List.Perm.cons x ih).trans (List.Perm.swap e x xs)

theorem sortByKey_perm (key : ToolAccumulatorEntry → Nat)
    (l : List ToolAccumulatorEntry) : (sortByKey key l).Perm l := by
  induction l with
  | nil => exact List.Perm.refl _
  | cons x xs ih =>
    show (insertByKey key x (sortByKey key xs)).Perm (x :: xs)
    exact (insertByKey_perm key x (sortByKey key xs)).trans
      (List.Perm.cons x ih)

theorem insertByKey_chain (key : ToolAccumulatorEntry → Nat)
    (e : ToolAccumulatorEntry) (l : List ToolAccumulatorEntry)
    (h : List.Chain' (fun a b => key a ≤ key b) l) :
    List.Chain' (fun a b => key a ≤ key b) (insertByKey key e l) := by
  induction l with
  | nil => simp [insertByKey]
  | cons x xs ih =>
    rw [insertByKey]
    by_cases hx : key e ≤ key x
    · rw [if_pos hx]
      exact h.cons hx
    · rw [if_neg hx]
      have hxe : key x ≤ key e := le_of_not_le hx
      have htail := ih h.tail
      cases xs with
      | nil => exact List.chain'_pair.mpr hxe
      | cons y ys =>
        rw [insertByKey]
        rw [insertByKey] at htail
        by_cases hy : key e ≤ key y
        · rw [if_pos hy] at htail ⊢
          exact htail.cons hxe
        · rw [if_neg hy] at htail ⊢
          exact htail.cons (List.chain'_cons.mp h).1

theorem sortByKey_chain (key : ToolAccumulatorEntry → Nat)
    (l : List ToolAccumulatorEntry) :
    List.Chain' (fun a b => key a ≤ key b) (sortByKey key l) := by
  induction l with
  | nil => simp [sortByKey]
  | cons x xs ih => exact insertByKey_chain key x (sortByKey key xs) ih

theorem sortByKey_of_chain_lt (key : ToolAccumulatorEntry → Nat)
    (l : List ToolAccumulatorEntry)
    (h : List.Chain' (fun a b => key a < key b) l) : sortByKey key l = l := by
  induction l with
  | nil => rfl
  | cons x xs ih =>
    show insertByKey key x (sortByKey key xs) = x :: xs
    rw [ih h.tail]
    cases xs with
    | nil => rfl
    | cons y ys =>
      rw [insertByKey, if_pos (le_of_lt (List.chain'_cons.mp h).1)]

theorem chain_le_nodup_imp_lt (key : ToolAccumulatorEntry → Nat)
    (l : List ToolAccumulatorEntry)
    (hle : List.Chain' (fun a b => key a ≤ key b) l)
    (hnd : (l.map key).Nodup) :
    List.Chain' (fun a b => key a < key b) l := by
  induction l with
  | nil => simp
  | cons x xs ih =>
    cases xs with
    | nil => simp
    | cons y ys =>
      have h1 : key x ≤ key y := (List.chain'_cons.mp hle).1
      have hne : ¬ key x = key y := by
        intro he
        rw [List.map_cons, List.nodup_cons] at hnd
        exact hnd.1 (by rw [he]; exact List.mem_cons_self _ _)
      exact (ih hle.tail (List.nodup_cons.mp hnd).2).cons
        (lt_of_le_of_ne h1 hne)

theorem chain_lt_of_map_range (key : ToolAccumulatorEntry → Nat)
    (l : List ToolAccumulatorEntry)
    (h : l.map key = List.range l.length) :
    List.Chain' (fun a b => key a < key b) l := by
  rw [List.chain'_iff_get]
  intro i hi
  have hki : ∀ j (hj : j < l.length), key (l.get ⟨j, hj⟩) = j := by
    intro j hj
    have h2 := congrArg (fun t => t.get? j) h
    simp only [List.get?_map, List.get?_eq_get hj, Option.map_some'] at h2
    rw [List.get?_range hj] at h2
    exact Option.some_inj.mp h2
  rw [hki i (by omega), hki (i + 1) (by omega)]
  omega

/-- Invariant on the index-registration map: registration keys are
pairwise distinct, and each binding references a stored entry whose
registered index equals the binding's key. -/
def byIndexOk (st : AccState) : Prop :=
  ((st.byIndex.map (·.1)).Nodup) ∧
  ∀ p ∈ st.byIndex, ∃ e, st.entries.get? p.2 = some e ∧ e.index = some p.1

theorem get?_lt_of_some {α : Type} (l : List α) (n : Nat) (a : α)
    (h : l.get? n = some a) : n < l.length := by
  rcases List.get?_eq_some.mp h with ⟨hlt, _⟩
  exact hlt

theorem byIndexOk_entryUpdate (jc : String → Bool) (st : AccState) (r : Nat)
    (d : ToolCallDelta) (h : byIndexOk st) :
    byIndexOk (entryUpdate jc st r d) := by
  rw [entryUpdate]
  cases hg : st.entries.get? r with
  | none => exact h
  | some e =>
    show byIndexOk { entries := st.entries.set r (updatedEntry jc e d),
                     byIndex := updatedByIndex st r e d,
                     byId := updatedById st r e d,
                     orderCounter := st.orderCounter,
                     synthCounter := st.synthCounter }
    obtain ⟨hnd, hb⟩ := h
    cases hdi : d.index with
    | none =>
      have hby : updatedByIndex st r e d = st.byIndex := by
        rw [updatedByIndex, hdi]
      refine ⟨by rw [hby]; exact hnd, ?_⟩
      intro p hp
      rw [hby] at hp
      obtain ⟨e', he', hei⟩ := hb p hp
      show ∃ e'', (st.entries.set r (updatedEntry jc e d)).get? p.2 =
        some e'' ∧ e''.index = some p.1
      by_cases hpr : p.2 = r
      · subst hpr
        rw [hg] at he'
        injection he' with he'
        subst he'
        refine ⟨updatedEntry jc e d, List.get?_set_eq_of_lt _
          (get?_lt_of_some _ _ _ hg), ?_⟩
        show (match e.index with
          | none => d.index
          | some ix => some ix) = some p.1
        rw [hei]
      · refine ⟨e', ?_, hei⟩
        rw [List.get?_set_ne _ _ (fun hc => hpr hc.symm)]
        exact he'
    | some ix =>
      by_cases hei : e.index = none
      · have hby : updatedByIndex st r e d = mapSet st.byIndex ix r := by
          rw [updatedByIndex, hdi]
          show (if e.index = none then mapSet st.byIndex ix r
                else st.byIndex) = mapSet st.byIndex ix r
          rw [if_pos hei]
        refine ⟨?_, ?_⟩
        · show ((updatedByIndex st r e d).map (·.1)).Nodup
          rw [hby]
          exact mapSet_keys_nodup _ _ _ hnd
        · intro p hp
          show ∃ e', (st.entries.set r (updatedEntry jc e d)).get? p.2 =
            some e' ∧ e'.index = some p.1
          rw [hby] at hp
          rcases mapSet_mem _ _ _ p hp with rfl | hpm
          · refine ⟨updatedEntry jc e d, List.get?_set_eq_of_lt _
              (get?_lt_of_some _ _ _ hg), ?_⟩
            show (match e.index with
              | none => d.index
              | some ix2 => some ix2) = some ix
            rw [hei, hdi]
          · obtain ⟨e', he', hei2⟩ := hb p hpm
            by_cases hpr : p.2 = r
            · subst hpr
              rw [hg] at he'
              injection he' with he'
              rw [he'] at hei
              rw [hei] at hei2
              cases hei2
            · refine ⟨e', ?_, hei2⟩
              rw [List.get?_set_ne _ _ (fun hc => hpr hc.symm)]
              exact he'
      · have hby : updatedByIndex st r e d = st.byIndex := by
          rw [updatedByIndex, hdi]
          show (if e.index = none then mapSet st.byIndex ix r
                else st.byIndex) = st.byIndex
          rw [if_neg hei]
        refine ⟨by rw [hby]; exact hnd, ?_⟩
        intro p hp
        rw [hby] at hp
        obtain ⟨e', he', hei2⟩ := hb p hp
        show ∃ e'', (st.entries.set r (updatedEntry jc e d)).get? p.2 =
          some e'' ∧ e''.index = some p.1
        by_cases hpr : p.2 = r
        · subst hpr
          rw [hg] at he'
          injection he' with he'
          subst he'
          refine ⟨updatedEntry jc e d, List.get?_set_eq_of_lt _
            (get?_lt_of_some _ _ _ hg), ?_⟩
          show (match e.index with
            | none => d.index
            | some ix2 => some ix2) = some p.1
          cases hex : e.index with
          | none => exact absurd hex hei
          | some ix0 => rw [hex] at hei2; exact hei2
        · refine ⟨e', ?_, hei2⟩
          rw [List.get?_set_ne _ _ (fun hc => hpr hc.symm)]
          exact he'

theorem acc_eq_no_id (jc : String → Bool) (synth : Nat → Nat → String)
    (st : AccState) (d : ToolCallDelta) (ht : truthyId d = none) :
    accumulateToolCallDelta jc synth st d =
      accumulateByIndexOrCreate jc synth st d := by
  simp only [accumulateToolCallDelta, ht]

theorem acc_eq_id_found (jc : String → Bool) (synth : Nat → Nat → String)
    (st : AccState) (d : ToolCallDelta) (idv : String) (r : Nat)
    (ht : truthyId d = some idv) (hm : mapGet st.byId idv = some r) :
    accumulateToolCallDelta jc synth st d = entryUpdate jc st r d := by
  simp only [accumulateToolCallDelta, ht, hm]

theorem acc_eq_id_miss (jc : String → Bool) (synth : Nat → Nat → String)
    (st : AccState) (d : ToolCallDelta) (idv : String)
    (ht : truthyId d = some idv) (hm : mapGet st.byId idv = none) :
    accumulateToolCallDelta jc synth st d =
      accumulateByIndexOrCreate jc synth st d := by
  simp only [accumulateToolCallDelta, ht, hm]

theorem bioc_eq_no_index (jc : String → Bool) (synth : Nat → Nat → String)
    (st : AccState) (d : ToolCallDelta) (hdi : d.index = none) :
    accumulateByIndexOrCreate jc synth st d =
      entryUpdate jc (createEntry synth st d).1 (createEntry synth st d).2 d := by
  simp only [accumulateByIndexOrCreate, hdi]

theorem bioc_eq_index_found (jc : String → Bool) (synth : Nat → Nat → String)
    (st : AccState) (d : ToolCallDelta) (ix r : Nat)
    (hdi : d.index = some ix) (hm : mapGet st.byIndex ix = some r) :
    accumulateByIndexOrCreate jc synth st d = entryUpdate jc st r d := by
  simp only [accumulateByIndexOrCreate, hdi, hm]

theorem bioc_eq_index_miss (jc : String → Bool) (synth : Nat → Nat → String)
    (st : AccState) (d : ToolCallDelta) (ix : Nat)
    (hdi : d.index = some ix) (hm : mapGet st.byIndex ix = none) :
    accumulateByIndexOrCreate jc synth st d =
      entryUpdate jc (createEntry synth st d).1 (createEntry synth st d).2 d := by
  simp only [accumulateByIndexOrCreate, hdi, hm]

theorem createEntry_byIndex_none (synth : Nat → Nat → String) (st : AccState)
    (d : ToolCallDelta) (hdi : d.index = none) :
    (createEntry synth st d).1.byIndex = st.byIndex := by
  show (match d.index with
        | some ix => mapSet st.byIndex ix st.entries.length
        | none => st.byIndex) = st.byIndex
  rw [hdi]

theorem createEntry_byIndex_some (synth : Nat → Nat → String) (st : AccState)
    (d : ToolCallDelta) (ix : Nat) (hdi : d.index = some ix) :
    (createEntry synth st d).1.byIndex =
      mapSet st.byIndex ix st.entries.length := by
  show (match d.index with
        | some ix2 => mapSet st.byIndex ix2 st.entries.length
        | none => st.byIndex) = mapSet st.byIndex ix st.entries.length
  rw [hdi]

theorem byIndexOk_createEntry (synth : Nat → Nat → String) (st : AccState)
    (d : ToolCallDelta) (h : byIndexOk st) :
    byIndexOk (createEntry synth st d).1 := by
  obtain ⟨hnd, hb⟩ := h
  have hold : ∀ p ∈ st.byIndex,
      ∃ e, (st.entries ++ [createdEntry synth st d]).get? p.2 = some e ∧
        e.index = some p.1 := by
    intro p hp
    obtain ⟨e, he, hei⟩ := hb p hp
    refine ⟨e, ?_, hei⟩
    rw [List.get?_append (get?_lt_of_some _ _ _ he)]
    exact he
  cases hdi : d.index with
  | none =>
    refine ⟨?_, ?_⟩
    · rw [createEntry_byIndex_none synth st d hdi]
      exact hnd
    · intro p hp
      rw [createEntry_byIndex_none synth st d hdi] at hp
      exact hold p hp
  | some ix =>
    refine ⟨?_, ?_⟩
    · rw [createEntry_byIndex_some synth st d ix hdi]
      exact mapSet_keys_nodup _ _ _ hnd
    · intro p hp
      rw [createEntry_byIndex_some synth st d ix hdi] at hp
      rcases mapSet_mem _ _ _ p hp with rfl | hpm
      · refine ⟨createdEntry synth st d, list_get?_concat _ _, ?_⟩
        show d.index = some ix
        exact hdi
      · exact hold p hpm

theorem byIndexOk_accumulate (jc : String → Bool)
    (synth : Nat → Nat → String) (st : AccState) (d : ToolCallDelta)
    (h : byIndexOk st) :
    byIndexOk (accumulateToolCallDelta jc synth st d) := by
  have hcreate : byIndexOk
      (entryUpdate jc (createEntry synth st d).1 (createEntry synth st d).2 d) :=
    byIndexOk_entryUpdate jc _ _ d (byIndexOk_createEntry synth st d h)
  have hbixc : byIndexOk (accumulateByIndexOrCreate jc synth st d) := by
    cases hdi : d.index with
    | none =>
      rw [bioc_eq_no_index jc synth st d hdi]
      exact hcreate
    | some ix =>
      cases hm : mapGet st.byIndex ix with
      | some r =>
        rw [bioc_eq_index_found jc synth st d ix r hdi hm]
        exact byIndexOk_entryUpdate jc st r d h
      | none =>
        rw [bioc_eq_index_miss jc synth st d ix hdi hm]
        exact hcreate
  cases ht : truthyId d with
  | none =>
    rw [acc_eq_no_id jc synth st d ht]
    exact hbixc
  | some idv =>
    cases hm : mapGet st.byId idv with
    | some r =>
      rw [acc_eq_id_found jc synth st d idv r ht hm]
      exact byIndexOk_entryUpdate jc st r d h
    | none =>
      rw [acc_eq_id_miss jc synth st d idv ht hm]
      exact hbixc

theorem byIndexOk_run (jc : String → Bool) (synth : Nat → Nat → String)
    (fs : List ToolCallDelta) : byIndexOk (runAccumulator jc synth fs) := by
  rw [runAccumulator]
  refine foldl_inv byIndexOk (fun _ => True) _ fs (fun _ _ => trivial)
    (fun s a _ hs => byIndexOk_accumulate jc synth s a hs) initialAccState
    ⟨List.nodup_nil, ?_⟩
  intro p hp
  exact absurd hp (List.not_mem_nil p)

theorem mapEntries_keys (st : AccState) (m : List (Nat × Nat))
    (hb : ∀ p ∈ m, ∃ e, st.entries.get? p.2 = some e ∧ e.index = some p.1) :
    (mapEntries st m).map (fun e => e.index.getD 0) = m.map (·.1) := by
  induction m with
  | nil => rfl
  | cons p m ih =>
    obtain ⟨e, he, hei⟩ := hb p (List.mem_cons_self _ _)
    show ((p :: m).filterMap (fun q => st.entries.get? q.2)).map
      (fun e => e.index.getD 0) = (p :: m).map (·.1)
    simp only [List.filterMap_cons, he]
    rw [List.map_cons, List.map_cons]
    rw [show mapEntries st m = m.filterMap (fun q => st.entries.get? q.2)
      from rfl] at ih
    rw [ih (fun q hq => hb q (List.mem_cons_of_mem p hq)), hei]
    rfl

theorem mapEntries_nodup (st : AccState) (m : List (Nat × Nat))
    (hnd : (m.map (·.1)).Nodup)
    (hb : ∀ p ∈ m, ∃ e, st.entries.get? p.2 = some e ∧ e.index = some p.1) :
    (mapEntries st m).Nodup := by
  have h1 : m.Pairwise (fun p q => ¬ p.1 = q.1) := List.pairwise_map.mp hnd
  have hpw : m.Pairwise (fun p q => ∀ x ∈ st.entries.get? p.2,
      ∀ y ∈ st.entries.get? q.2, x ≠ y) := by
    refine List.Pairwise.imp_of_mem ?_ h1
    intro p q hp hq hne x hx y hy
    obtain ⟨ep, hep, heip⟩ := hb p hp
    obtain ⟨eq2, heq2, heiq⟩ := hb q hq
    rw [hep] at hx
    rw [heq2] at hy
    simp only [Option.mem_def, Option.some_inj] at hx hy
    subst hx
    subst hy
    intro hc
    apply hne
    have hix : ep.index = eq2.index := by rw [hc]
    rw [heip, heiq] at hix
    injection hix
  exact List.Pairwise.filterMap _ (fun p q hpq => hpq) hpw

theorem mapEntries_subset (st : AccState) (m : List (Nat × Nat)) :
    ∀ e ∈ mapEntries st m, e ∈ st.entries := by
  intro e he
  rcases List.mem_filterMap.mp he with ⟨p, _, hp⟩
  exact List.get?_mem hp

/-- Invariant of the accumulator over a stream whose fragments never carry
an index: the index map stays empty, the store order counters equal the
positions, the id map references every stored entry once in creation order
under its current id, and every id key is either a stream id or a synthetic
id minted below the current synthetic counter. -/
def noIdxInv (synth : Nat → Nat → String) (fs : List ToolCallDelta)
    (st : AccState) : Prop :=
  st.byIndex = [] ∧
  st.orderCounter = st.entries.length ∧
  (∀ r e, st.entries.get? r = some e → e.order = r) ∧
  st.byId.map (·.2) = List.range st.entries.length ∧
  (∀ p ∈ st.byId, ∃ e, st.entries.get? p.2 = some e ∧ e.id = p.1) ∧
  (∀ p ∈ st.byId, (∃ d ∈ fs, truthyId d = some p.1) ∨
    ∃ n i, n < st.synthCounter ∧ p.1 = synth n i)

theorem truthyId_eq_some (d : ToolCallDelta) (s : String)
    (h : truthyId d = some s) : d.id = some s := by
  cases hid : d.id with
  | none => simp [truthyId, hid] at h
  | some s0 =>
    by_cases h0 : s0 = ""
    · simp [truthyId, hid, h0] at h
    · simp [truthyId, hid, h0] at h
      rw [h]

theorem provisionalIdOf_of_truthy (synth : Nat → Nat → String)
    (st : AccState) (d : ToolCallDelta) (idv : String)
    (ht : truthyId d = some idv) : provisionalIdOf synth st d = idv := by
  rw [provisionalIdOf, ht]

theorem provisionalIdOf_of_anon (synth : Nat → Nat → String)
    (st : AccState) (d : ToolCallDelta) (ht : truthyId d = none)
    (hdi : d.index = none) :
    provisionalIdOf synth st d = synth st.synthCounter st.byId.length := by
  rw [provisionalIdOf, ht]
  show synth st.synthCounter (d.index.getD st.byId.length) = _
  rw [hdi]
  rfl

theorem updatedByIndex_of_none (st : AccState) (r : Nat)
    (e : ToolAccumulatorEntry) (d : ToolCallDelta) (hdi : d.index = none) :
    updatedByIndex st r e d = st.byIndex := by
  rw [updatedByIndex, hdi]

theorem updatedById_of_selfid (st : AccState) (r : Nat)
    (e : ToolAccumulatorEntry) (d : ToolCallDelta) (idv : String)
    (ht : truthyId d = some idv) (hid : e.id = idv) :
    updatedById st r e d = st.byId := by
  rw [updatedById, ht, hid]
  simp

theorem updatedById_of_anon (st : AccState) (r : Nat)
    (e : ToolAccumulatorEntry) (d : ToolCallDelta) (ht : truthyId d = none) :
    updatedById st r e d = st.byId := by
  rw [updatedById, ht]

theorem updatedEntry_id_getD (jc : String → Bool) (e : ToolAccumulatorEntry)
    (d : ToolCallDelta) : (updatedEntry jc e d).id = (truthyId d).getD e.id :=
  rfl

theorem updatedEntry_order (jc : String → Bool) (e : ToolAccumulatorEntry)
    (d : ToolCallDelta) : (updatedEntry jc e d).order = e.order := rfl

theorem entryUpdate_eq (jc : String → Bool) (st : AccState) (r : Nat)
    (d : ToolCallDelta) (e : ToolAccumulatorEntry)
    (hg : st.entries.get? r = some e) :
    entryUpdate jc st r d =
      { entries := st.entries.set r (updatedEntry jc e d),
        byIndex := updatedByIndex st r e d,
        byId := updatedById st r e d,
        orderCounter := st.orderCounter,
        synthCounter := st.synthCounter } := by
  simp only [entryUpdate, hg]

theorem noIdxInv_update (jc : String → Bool) (synth : Nat → Nat → String)
    (fs : List ToolCallDelta) (st : AccState) (d : ToolCallDelta)
    (idv : String) (r : Nat) (ht : truthyId d = some idv)
    (hm : mapGet st.byId idv = some r) (hdi : d.index = none)
    (h : noIdxInv synth fs st) :
    noIdxInv synth fs (entryUpdate jc st r d) := by
  obtain ⟨hbix, hoc, hord, hrefs, hids, hsrc⟩ := h
  obtain ⟨e, hg, heid⟩ := hids (idv, r) (mapGet_mem _ _ _ hm)
  rw [entryUpdate_eq jc st r d e hg]
  have hlen : (st.entries.set r (updatedEntry jc e d)).length =
      st.entries.length := List.length_set st.entries r _
  refine ⟨?_, ?_, ?_, ?_, ?_, ?_⟩
  · show updatedByIndex st r e d = []
    rw [updatedByIndex_of_none st r e d hdi]
    exact hbix
  · show st.orderCounter = (st.entries.set r (updatedEntry jc e d)).length
    rw [hlen]
    exact hoc
  · intro r' e' he'
    by_cases hr : r' = r
    · subst hr
      rw [List.get?_set_eq_of_lt _ (get?_lt_of_some _ _ _ hg)] at he'
      injection he' with he'
      rw [← he', updatedEntry_order]
      exact hord r' e hg
    · rw [List.get?_set_ne _ _ (fun hc => hr hc.symm)] at he'
      exact hord r' e' he'
  · show (updatedById st r e d).map (·.2) = _
    rw [updatedById_of_selfid st r e d idv ht heid, hlen]
    exact hrefs
  · intro p hp
    rw [updatedById_of_selfid st r e d idv ht heid] at hp
    obtain ⟨e', he', hid'⟩ := hids p hp
    by_cases hr : p.2 = r
    · subst hr
      rw [hg] at he'
      injection he' with he'
      subst he'
      refine ⟨updatedEntry jc e d,
        List.get?_set_eq_of_lt _ (get?_lt_of_some _ _ _ hg), ?_⟩
      rw [updatedEntry_id_getD, ht]
      show idv = p.1
      exact heid.symm.trans hid'
    · refine ⟨e', ?_, hid'⟩
      rw [List.get?_set_ne _ _ (fun hc => hr hc.symm)]
      exact he'
  · intro p hp
    rw [updatedById_of_selfid st r e d idv ht heid] at hp
    exact hsrc p hp

theorem createdEntry_id (synth : Nat → Nat → String) (st : AccState)
    (d : ToolCallDelta) :
    (createdEntry synth st d).id = provisionalIdOf synth st d := rfl

theorem createdEntry_order (synth : Nat → Nat → String) (st : AccState)
    (d : ToolCallDelta) : (createdEntry synth st d).order = st.orderCounter :=
  rfl

theorem createEntry_synth_of_truthy (synth : Nat → Nat → String)
    (st : AccState) (d : ToolCallDelta) (idv : String)
    (ht : truthyId d = some idv) :
    (createEntry synth st d).1.synthCounter = st.synthCounter := by
  show (match truthyId d with
        | some _ => st.synthCounter
        | none => st.synthCounter + 1) = st.synthCounter
  rw [ht]

theorem createEntry_synth_of_anon (synth : Nat → Nat → String)
    (st : AccState) (d : ToolCallDelta) (ht : truthyId d = none) :
    (createEntry synth st d).1.synthCounter = st.synthCounter + 1 := by
  show (match truthyId d with
        | some _ => st.synthCounter
        | none => st.synthCounter + 1) = st.synthCounter + 1
  rw [ht]

theorem noIdxInv_create (jc : String → Bool) (synth : Nat → Nat → String)
    (fs : List ToolCallDelta) (st : AccState) (d : ToolCallDelta)
    (hd : d ∈ fs) (hdi : d.index = none)
    (habs : ∀ p ∈ st.byId, ¬ p.1 = provisionalIdOf synth st d)
    (h : noIdxInv synth fs st) :
    noIdxInv synth fs
      (entryUpdate jc (createEntry synth st d).1 (createEntry synth st d).2
        d) := by
  obtain ⟨hbix, hoc, hord, hrefs, hids, hsrc⟩ := h
  have hent : (createEntry synth st d).1.entries =
      st.entries ++ [createdEntry synth st d] := rfl
  have hbid : (createEntry synth st d).1.byId =
      mapSet st.byId (provisionalIdOf synth st d) st.entries.length := rfl
  have hocC : (createEntry synth st d).1.orderCounter =
      st.orderCounter + 1 := rfl
  have hr2 : (createEntry synth st d).2 = st.entries.length := rfl
  have hbidapp : (createEntry synth st d).1.byId =
      st.byId ++ [(provisionalIdOf synth st d, st.entries.length)] := by
    rw [hbid]
    exact mapSet_of_absent st.byId _ _ habs
  have hget : (createEntry synth st d).1.entries.get?
      (createEntry synth st d).2 = some (createdEntry synth st d) := by
    rw [hent, hr2]
    exact list_get?_concat _ _
  rw [entryUpdate_eq jc _ _ d _ hget]
  have hset : (createEntry synth st d).1.entries.set
      (createEntry synth st d).2
      (updatedEntry jc (createdEntry synth st d) d) =
      st.entries ++ [updatedEntry jc (createdEntry synth st d) d] := by
    rw [hent, hr2]
    exact list_set_concat _ _ _
  have hlen2 : (st.entries ++
      [updatedEntry jc (createdEntry synth st d) d]).length =
      st.entries.length + 1 := by
    rw [List.length_append]
    rfl
  have hupdid : (updatedEntry jc (createdEntry synth st d) d).id =
      provisionalIdOf synth st d := by
    rw [updatedEntry_id_getD, createdEntry_id]
    cases ht : truthyId d with
    | none => rfl
    | some idv =>
      rw [provisionalIdOf_of_truthy synth st d idv ht]
      rfl
  have hbyid2 : updatedById (createEntry synth st d).1
      (createEntry synth st d).2 (createdEntry synth st d) d =
      st.byId ++ [(provisionalIdOf synth st d, st.entries.length)] := by
    cases ht : truthyId d with
    | none =>
      rw [updatedById_of_anon _ _ _ _ ht]
      exact hbidapp
    | some idv =>
      rw [updatedById_of_selfid _ _ _ _ idv ht (by
        rw [createdEntry_id]
        exact provisionalIdOf_of_truthy synth st d idv ht)]
      exact hbidapp
  refine ⟨?_, ?_, ?_, ?_, ?_, ?_⟩
  · show updatedByIndex (createEntry synth st d).1 (createEntry synth st d).2
      (createdEntry synth st d) d = []
    rw [updatedByIndex_of_none _ _ _ _ hdi,
      createEntry_byIndex_none synth st d hdi]
    exact hbix
  · show (createEntry synth st d).1.orderCounter = _
    rw [hocC, hset, hlen2, hoc]
  · intro r' e' he'
    rw [hset] at he'
    by_cases hlt : r' < st.entries.length
    · rw [List.get?_append hlt] at he'
      exact hord r' e' he'
    · by_cases heq2 : r' = st.entries.length
      · subst heq2
        rw [list_get?_concat] at he'
        injection he' with he'
        rw [← he', updatedEntry_order, createdEntry_order]
        exact hoc
      · exfalso
        have hnone : (st.entries ++
            [updatedEntry jc (createdEntry synth st d) d]).get? r' = none := by
          apply List.get?_eq_none.mpr
          rw [hlen2]
          omega
        rw [hnone] at he'
        cases he'
  · show (updatedById (createEntry synth st d).1 (createEntry synth st d).2
      (createdEntry synth st d) d).map (·.2) = _
    rw [hbyid2, hset, List.map_append, hrefs, hlen2]
    rw [List.range_succ]
    rfl
  · intro p hp
    rw [hbyid2] at hp
    rcases List.mem_append.mp hp with hpo | hpn
    · obtain ⟨e', he', hid'⟩ := hids p hpo
      refine ⟨e', ?_, hid'⟩
      rw [hset]
      have hlt : p.2 < st.entries.length := by
        have hmem : p.2 ∈ st.byId.map (·.2) := List.mem_map_of_mem _ hpo
        rw [hrefs] at hmem
        exact List.mem_range.mp hmem
      rw [List.get?_append hlt]
      exact he'
    · simp only [List.mem_singleton] at hpn
      subst hpn
      refine ⟨updatedEntry jc (createdEntry synth st d) d, ?_, ?_⟩
      · rw [hset]
        exact list_get?_concat _ _
      · rw [hupdid]
  · intro p hp
    rw [hbyid2] at hp
    rcases List.mem_append.mp hp with hpo | hpn
    · rcases hsrc p hpo with hl | ⟨n, i, hn, hpi⟩
      · exact Or.inl hl
      · refine Or.inr ⟨n, i, ?_, hpi⟩
        show n < (createEntry synth st d).1.synthCounter
        cases ht : truthyId d with
        | none => rw [createEntry_synth_of_anon synth st d ht]; omega
        | some idv => rw [createEntry_synth_of_truthy synth st d idv ht]
                      ; exact hn
    · simp only [List.mem_singleton] at hpn
      subst hpn
      cases ht : truthyId d with
      | some idv =>
        refine Or.inl ⟨d, hd, ?_⟩
        rw [ht]
        show some idv = some (provisionalIdOf synth st d)
        rw [provisionalIdOf_of_truthy synth st d idv ht]
      | none =>
        refine Or.inr ⟨st.synthCounter, st.byId.length, ?_, ?_⟩
        · show st.synthCounter < (createEntry synth st d).1.synthCounter
          rw [createEntry_synth_of_anon synth st d ht]
          omega
        · show provisionalIdOf synth st d = synth st.synthCounter
            st.byId.length
          exact provisionalIdOf_of_anon synth st d ht hdi

theorem noIdxInv_step (jc : String → Bool) (synth : Nat → Nat → String)
    (fs : List ToolCallDelta)
    (Hinj : ∀ n i m j, synth n i = synth m j → n = m)
    (Hfresh : ∀ d ∈ fs, ∀ n i, ¬ d.id = some (synth n i))
    (st : AccState) (d : ToolCallDelta) (hd : d ∈ fs)
    (hdi : d.index = none) (h : noIdxInv synth fs st) :
    noIdxInv synth fs (accumulateToolCallDelta jc synth st d) := by
  cases ht : truthyId d with
  | some idv =>
    cases hm : mapGet st.byId idv with
    | some r =>
      rw [acc_eq_id_found jc synth st d idv r ht hm]
      exact noIdxInv_update jc synth fs st d idv r ht hm hdi h
    | none =>
      rw [acc_eq_id_miss jc synth st d idv ht hm,
        bioc_eq_no_index jc synth st d hdi]
      refine noIdxInv_create jc synth fs st d hd hdi ?_ h
      intro p hp hpk
      rw [provisionalIdOf_of_truthy synth st d idv ht] at hpk
      exact mapGet_none_not_mem st.byId idv hm p hp hpk
  | none =>
    rw [acc_eq_no_id jc synth st d ht,
      bioc_eq_no_index jc synth st d hdi]
    refine noIdxInv_create jc synth fs st d hd hdi ?_ h
    intro p hp hpk
    rw [provisionalIdOf_of_anon synth st d ht hdi] at hpk
    obtain ⟨hbix, hoc, hord, hrefs, hids, hsrc⟩ := h
    rcases hsrc p hp with ⟨d2, hd2, ht2⟩ | ⟨n, i, hn, hpi⟩
    · have hid2 := truthyId_eq_some d2 p.1 ht2
      rw [hpk] at hid2
      exact Hfresh d2 hd2 st.synthCounter st.byId.length hid2
    · rw [hpk] at hpi
      have := Hinj st.synthCounter st.byId.length n i hpi
      omega

theorem noIdxInv_run (jc : String → Bool) (synth : Nat → Nat → String)
    (fs : List ToolCallDelta)
    (Hinj : ∀ n i m j, synth n i = synth m j → n = m)
    (Hfresh : ∀ d ∈ fs, ∀ n i, ¬ d.id = some (synth n i))
    (hnoidx : ∀ d ∈ fs, d.index = none) :
    noIdxInv synth fs (runAccumulator jc synth fs) := by
  rw [runAccumulator]
  refine foldl_inv (noIdxInv synth fs) (fun d => d ∈ fs ∧ d.index = none) _
    fs (fun d hd => ⟨hd, hnoidx d hd⟩)
    (fun s a ha hs => noIdxInv_step jc synth fs Hinj Hfresh s a ha.1 ha.2 hs)
    initialAccState ⟨rfl, rfl, ?_, rfl, ?_, ?_⟩
  · intro r e he
    cases he
  · intro p hp
    exact absurd hp (List.not_mem_nil p)
  · intro p hp
    exact absurd hp (List.not_mem_nil p)

theorem mapEntries_byId_eq_entries (st : AccState)
    (hrefs : st.byId.map (·.2) = List.range st.entries.length) :
    mapEntries st st.byId = st.entries := by
  show st.byId.filterMap (fun p => st.entries.get? p.2) = st.entries
  have h1 : st.byId.filterMap (fun p => st.entries.get? p.2) =
      (st.byId.map (·.2)).filterMap st.entries.get? :=
    (List.filterMap_map _ _ _).symm
  rw [h1, hrefs, filterMap_get?_range]

theorem chain_lt_order_of_ord (l : List ToolAccumulatorEntry)
    (hord : ∀ r e, l.get? r = some e → e.order = r) :
    List.Chain' (fun a b => a.order < b.order) l := by
  rw [List.chain'_iff_get]
  intro i hi
  have hi1 : i < l.length := by omega
  have hi2 : i + 1 < l.length := by omega
  have h1 : l.get? i = some (l.get ⟨i, hi1⟩) := List.get?_eq_get hi1
  have h2 : l.get? (i + 1) = some (l.get ⟨i + 1, hi2⟩) := List.get?_eq_get hi2
  have e1 := hord i _ h1
  have e2 := hord (i + 1) _ h2
  rw [e1, e2]
  omega

theorem noidx_assembly (jc : String → Bool) (synth : Nat → Nat → String)
    (fs : List ToolCallDelta)
    (Hinj : ∀ n i m j, synth n i = synth m j → n = m)
    (Hfresh : ∀ d ∈ fs, ∀ n i, ¬ d.id = some (synth n i))
    (hnoidx : ∀ d ∈ fs, d.index = none) :
    assembledNamedToolCalls (runAccumulator jc synth fs) =
      ((runAccumulator jc synth fs).entries.filter
        (fun e => e.name != "" && jsTrim e.name != "")).map toToolCallReq := by
  obtain ⟨hbix, hoc, hord, hrefs, hids, hsrc⟩ :=
    noIdxInv_run jc synth fs Hinj Hfresh hnoidx
  rw [assembledNamedToolCalls, assembleToolCalls]
  have hcond : ¬ (runAccumulator jc synth fs).byIndex.length > 0 := by
    rw [hbix]
    decide
  rw [if_neg hcond]
  rw [mapEntries_byId_eq_entries _ hrefs]
  rw [sortByKey_of_chain_lt _ _ (chain_lt_order_of_ord _ hord)]
  rw [List.filter_map]
  rfl

/-- Counterexample to C2 as stated: in a stream where one fragment carries
an index and another accumulated entry never receives one, the unindexed
entry (here named "g", a non-empty name) is accumulated in the store but
absent from the assembled result, because assembly uses only the index map
once any index was registered. -/
theorem streaming_assembly_counterexample :
    ((runAccumulator (fun _ => false) (fun _ _ => "syn")
        [{ index := some 0, id := some "a", name := some "f" },
         { id := some "b", name := some "g" }]).entries.countP
      (fun e => e.name == "g")) = 1 ∧
    ((assembledNamedToolCalls (runAccumulator (fun _ => false)
        (fun _ _ => "syn")
        [{ index := some 0, id := some "a", name := some "f" },
         { id := some "b", name := some "g" }])).countP
      (fun tc => tc.name == "g")) = 0 := by
  decide

/-- Claim C2 (amended): provided distinct synthetic-id mints never collide
and stream ids are never synthetic, (1) when no fragment carried an index,
the assembled result is exactly the accumulated entries with non-empty
trimmed names, once each, in first-seen creation order; (2) in general the
assembled index-map portion is a permutation of the entries registered in
the index map, sorted strictly ascending by stream index, containing each
registered entry exactly once, every one drawn from the accumulated store —
an accumulated entry that never obtained an index registration (possible in
a mixed stream) is absent, which corrects the original claim. -/
theorem streaming_assembly_order (jc : String → Bool)
    (synth : Nat → Nat → String) (fs : List ToolCallDelta)
    (Hinj : ∀ n i m j, synth n i = synth m j → n = m)
    (Hfresh : ∀ d ∈ fs, ∀ n i, ¬ d.id = some (synth n i)) :
    ((∀ d ∈ fs, d.index = none) →
      assembledNamedToolCalls (runAccumulator jc synth fs) =
        ((runAccumulator jc synth fs).entries.filter
          (fun e => e.name != "" && jsTrim e.name != "")).map toToolCallReq) ∧
    (sortByKey (fun e => e.index.getD 0)
        (mapEntries (runAccumulator jc synth fs)
          (runAccumulator jc synth fs).byIndex)).Perm
      (mapEntries (runAccumulator jc synth fs)
        (runAccumulator jc synth fs).byIndex) ∧
    List.Chain' (fun a b => a.index.getD 0 < b.index.getD 0)
      (sortByKey (fun e => e.index.getD 0)
        (mapEntries (runAccumulator jc synth fs)
          (runAccumulator jc synth fs).byIndex)) ∧
    (mapEntries (runAccumulator jc synth fs)
      (runAccumulator jc synth fs).byIndex).Nodup ∧
    ∀ e ∈ mapEntries (runAccumulator jc synth fs)
      (runAccumulator jc synth fs).byIndex,
      e ∈ (runAccumulator jc synth fs).entries := by
  obtain ⟨hnd, hb⟩ := byIndexOk_run jc synth fs
  refine ⟨fun hnoidx => noidx_assembly jc synth fs Hinj Hfresh hnoidx,
    sortByKey_perm _ _, ?_, mapEntries_nodup _ _ hnd hb,
    mapEntries_subset _ _⟩
  apply chain_le_nodup_imp_lt
  · exact sortByKey_chain _ _
  · have hperm := sortByKey_perm (fun e => e.index.getD 0)
      (mapEntries (runAccumulator jc synth fs)
        (runAccumulator jc synth fs).byIndex)
    have hkeys := mapEntries_keys (runAccumulator jc synth fs)
      (runAccumulator jc synth fs).byIndex hb
    have hLnd : ((mapEntries (runAccumulator jc synth fs)
        (runAccumulator jc synth fs).byIndex).map
          (fun e => e.index.getD 0)).Nodup := by
      rw [hkeys]
      exact hnd
    exact ((hperm.map (fun e => e.index.getD 0)).symm).nodup hLnd

/-- Witness for the amended C2 at a concrete all-synthetic stream: the
synthetic minting is injective in its counter, no fragment id is synthetic,
and the assembled result equals the name-filtered accumulated store. -/
theorem streaming_assembly_order_witness :
    (∀ n i m j : Nat, String.mk (List.replicate (n + 1) 'z') =
        String.mk (List.replicate (m + 1) 'z') → n = m) ∧
    (∀ d ∈ ([{ name := some "f", arguments := some "x" },
        { name := some "g" }] : List ToolCallDelta), ∀ n i : Nat,
        ¬ d.id = some (String.mk (List.replicate (n + 1) 'z'))) ∧
    assembledNamedToolCalls (runAccumulator (fun s => s == "x")
        (fun n _ => String.mk (List.replicate (n + 1) 'z'))
        ([{ name := some "f", arguments := some "x" },
          { name := some "g" }] : List ToolCallDelta)) =
      ((runAccumulator (fun s => s == "x")
        (fun n _ => String.mk (List.replicate (n + 1) 'z'))
        ([{ name := some "f", arguments := some "x" },
          { name := some "g" }] : List ToolCallDelta)).entries.filter
        (fun e => e.name != "" && jsTrim e.name != "")).map toToolCallReq := by
  have hinj : ∀ n i m j : Nat,
      (fun (n : Nat) (_ : Nat) => String.mk (List.replicate (n + 1) 'z')) n i =
      (fun (n : Nat) (_ : Nat) => String.mk (List.replicate (n + 1) 'z')) m j →
      n = m := by
    intro n i m j hz
    have h2 := congrArg (fun s => s.data.length) hz
    simp at h2
    omega
  have hfresh : ∀ d ∈ ([{ name := some "f", arguments := some "x" },
      { name := some "g" }] : List ToolCallDelta), ∀ n i : Nat,
      ¬ d.id = some ((fun (n : Nat) (_ : Nat) =>
        String.mk (List.replicate (n + 1) 'z')) n i) := by
    intro d hd n i hc
    simp only [List.mem_cons, List.not_mem_nil, or_false] at hd
    rcases hd with rfl | rfl
    · exact Option.noConfusion hc
    · exact Option.noConfusion hc
  exact ⟨hinj, hfresh,
    (streaming_assembly_order (fun s => s == "x")
      (fun n _ => String.mk (List.replicate (n + 1) 'z'))
      ([{ name := some "f", arguments := some "x" },
        { name := some "g" }] : List ToolCallDelta) hinj hfresh).1
      (by decide)⟩
